import Mathlib

/-!
canal: a call-site scanner for C-style source text.

A shallow embedding of `canal.c` and a verification of its behaviour.

Modelling conventions

* The process-wide variables of `canal.c` are the fields of `Canal.State`; the
  command-line target `follow` is a parameter (`none` is `NULL`).
* `Canal.step` is the body of the loop of `main`; `Canal.scanFrom` and
  `Canal.scan` apply it to each of the characters that the loop handles.
* `Canal.loopFrom` is the loop itself on the input: it ends at the end of the
  input or at the first character that compares equal to `EOF` in `char c`
  (the byte 0xFF, `char` being signed), and it has no result (`none`) when an
  iteration leaves the limits of the program (`Canal.stepDefined`): a write
  past `identifier[30]`, or an `int` (`depth`, `line`, `col`) moved out of its
  range.  Within the limits the counters of the model, which are unbounded
  (`Int`, and `Nat` for `line` and `col`), are those of the program.
  Allocation in `find_id` (`realloc`, `strdup`) is taken to succeed.
* A `char *` text is a `List Char` without the terminating NUL.  The identifier
  buffer holds the characters written since `p` was reset; where the source
  hands the buffer to a string function its text is `cstr` of it (the
  characters before the first NUL).
* Standard output is a list of lines, `Canal.OutLine`; `Canal.render` gives
  the characters of a line.  A report records the values of `line` and
  `depth` it is printed from; the depth is printed as that many tabs, none
  when it is negative.
* An ID outside the table, where `id_as_str` of the source reads out of
  range, has no text (`none`); the scan prints the empty text for it.  The
  invariant `Canal.TableOK` shows that the scan never asks for one.
* A run of the program is `Canal.main` on the argument vector and the input;
  its result `Canal.Run` holds the exit status, the text on standard error,
  the number of characters taken from the input and the final state.
-/

namespace Canal

set_option maxRecDepth 100000

/-- The scanner states, the first `enum` of `canal.c`. -/
inductive ScanState where
  | STATE_ANY
  | STATE_COMMENT_BEGIN
  | STATE_COMMENT_END
  | STATE_COMMENT_END_FIN
  | STATE_SKIP_EOL
  | STATE_IDENTIFIER
  | STATE_SQUOTE_END
  | STATE_DQUOTE_END
  deriving DecidableEq, Repr

open ScanState

/-- The array `keyword[]`. -/
def keyword : List (List Char) :=
  ["static", "const", "volatile", "register", "extern", "restrict",
   "char", "short", "int", "long", "float", "double", "void",
   "unsigned", "signed", "size_t", "ssize_t",
   "enum", "struct", "union", "typedef",
   "for", "switch", "if", "else", "do", "while",
   "case",
   "break", "continue",
   "return", "goto",
   "sizeof",
   "bool", "NULL"].map String.toList

/-- The constant `kw_arr_len`, `sizeof(keyword) / sizeof(keyword[0])`. -/
def kw_arr_len : Nat := keyword.length

/-- One line written to standard output. -/
inductive OutLine where
  /-- The line `id 'NAME' is func...` of the lookahead check. -/
  | func (name : List Char)
  /-- The report of a call site: `printf("%d\t", line)`, then one tab per
  level of `depth`, then `puts(NAME)`. -/
  | call (line : Nat) (depth : Int) (name : List Char)
  deriving DecidableEq, Repr

/-- The characters of an output line. -/
def render : OutLine → List Char
  | .func name => "id '".toList ++ name ++ "' is func...\n".toList
  | .call line depth name =>
      (Nat.repr line).toList ++ ['\t'] ++ List.replicate depth.toNat '\t' ++ name ++ ['\n']

/-- The text of a character buffer read as a C string. -/
def cstr (buf : List Char) : List Char :=
  buf.takeWhile (fun ch => ch ≠ Char.ofNat 0)

/-- The global variables of `canal.c`, and the lines printed so far. -/
structure State where
  /-- The array `identifiers`; `n_identifiers` is its length. -/
  identifiers : List (List Char)
  alloc_identifiers : Nat
  identifier_no : Nat
  state : ScanState
  last_state : ScanState
  escape : Nat
  col : Nat
  line : Nat
  depth : Int
  follow_on : Int
  /-- The characters `identifier[0]` up to `p`; the array has 30 bytes, and
  `stepDefined` tells whether a step writes inside it. -/
  identifier : List Char
  finished_identifier : List Char
  out : List OutLine
  deriving DecidableEq, Repr

/-- The state at program start: static storage is zero, `follow_on` is -1. -/
def init : State where
  identifiers := []
  alloc_identifiers := 0
  identifier_no := 0
  state := STATE_ANY
  last_state := STATE_ANY
  escape := 0
  col := 0
  line := 0
  depth := 0
  follow_on := -1
  identifier := []
  finished_identifier := []
  out := []

/-- The function `is_keyword`. -/
def is_keyword (idn : Nat) : Bool :=
  decide (idn < kw_arr_len)

/-- The search loops of `find_id`, `for (i = 0; i < n; i++) if (strcmp(identifier,
arr[i]) == 0) return i;`: the first index at which `identifier` stands in `arr`. -/
def firstMatch (identifier : List Char) : List (List Char) → Option Nat
  | [] => none
  | y :: ys => if identifier = y then some 0 else (firstMatch identifier ys).map (· + 1)

/-- The function `find_id` on the symbol table of `s`: the ID, and the state
with the table after the call. -/
def find_id (s : State) (identifier : List Char) : Nat × State :=
  match firstMatch identifier keyword with
  | some i => (i, s)
  | none =>
    match firstMatch identifier s.identifiers with
    | some i => (kw_arr_len + i, s)
    | none =>
      (kw_arr_len + s.identifiers.length,
        { s with
          identifiers := s.identifiers ++ [identifier]
          alloc_identifiers :=
            if s.alloc_identifiers = s.identifiers.length then
              (if s.alloc_identifiers = 0 then 16 else s.alloc_identifiers * 2)
            else s.alloc_identifiers })

/-- The function `id_as_str`; `none` where the source indexes out of range. -/
def id_as_str (s : State) (idn : Nat) : Option (List Char) :=
  if is_keyword idn then keyword[idn]?
  else s.identifiers[idn - kw_arr_len]?

/-- The function `check_follow`. -/
def check_follow (follow : Option (List Char)) (s : State) (identifier : List Char) : State :=
  match follow with
  | some target =>
      if s.follow_on = -1 ∧ s.depth = 0 ∧ identifier = target then
        { s with follow_on := s.depth }
      else if s.follow_on = s.depth ∧ identifier ≠ target then
        { s with follow_on := -1 }
      else s
  | none => { s with follow_on := 0 }

/-- The test `(c >= 'A' && c <= 'Z') || (c >= 'a' && c <= 'z')`. -/
def isAlpha (c : Char) : Bool :=
  ('A' ≤ c ∧ c ≤ 'Z') ∨ ('a' ≤ c ∧ c ≤ 'z')

/-- The test that keeps the scanner in `STATE_IDENTIFIER`; its third disjunct
is `(c >= 0 && c <= 9)`, a comparison of character codes. -/
def continuesIdentifier (c : Char) : Bool :=
  isAlpha c ∨ c.toNat ≤ 9 ∨ c = '_'

/-- First statement of the loop body: a `#` in column 0. -/
def hashCheck (s : State) (c : Char) : State :=
  if s.col = 0 ∧ c = '#' then { s with state := STATE_SKIP_EOL } else s

/-- Second statement of the loop body: the lookahead check and its `printf`. -/
def lookahead (s : State) (c : Char) : State :=
  if s.last_state = STATE_IDENTIFIER ∧ s.state = STATE_ANY ∧ c = '(' ∧
      is_keyword s.identifier_no = false then
    { s with out := s.out ++ [OutLine.func ((id_as_str s s.identifier_no).getD [])] }
  else s

/-- The `if (c == '(' && !is_keyword(identifier_no))` block of the identifier
case: the follow filter and the report. -/
def report (follow : Option (List Char)) (s : State) (c : Char) : State :=
  if c = '(' ∧ is_keyword s.identifier_no = false then
    let s1 := check_follow follow s (cstr s.identifier)
    if follow = none ∨ (s1.follow_on ≠ -1 ∧ s1.follow_on ≠ s1.depth) then
      { s1 with out := s1.out ++
          [OutLine.call s1.line s1.depth ((id_as_str s1 s1.identifier_no).getD [])] }
    else s1
  else s

/-- The end of an identifier: the body of the `if` in `case STATE_IDENTIFIER`. -/
def finalize (follow : Option (List Char)) (s : State) (c : Char) : State :=
  let r := find_id s (cstr s.identifier)
  let s1 := { r.2 with identifier_no := r.1, finished_identifier := cstr s.identifier }
  { report follow s1 c with state := STATE_ANY }

/-- The `switch (state)` statement. -/
def transition (follow : Option (List Char)) (s : State) (c : Char) : State :=
  match s.state with
  | STATE_ANY =>
      if c = '/' then { s with state := STATE_COMMENT_BEGIN }
      else if isAlpha c ∨ c = '_' then { s with identifier := [c], state := STATE_IDENTIFIER }
      else if c = '\'' then { s with state := STATE_SQUOTE_END }
      else if c = '\"' then { s with state := STATE_DQUOTE_END }
      else if c = '{' then { s with depth := s.depth + 1 }
      else if c = '}' then { s with depth := s.depth - 1 }
      else s
  | STATE_SQUOTE_END =>
      if c = '\\' ∧ s.escape = 0 then { s with escape := 1 }
      else if c = '\'' ∧ s.escape = 0 then { s with state := STATE_ANY }
      else { s with escape := 0 }
  | STATE_DQUOTE_END =>
      if c = '\\' ∧ s.escape = 0 then { s with escape := 1 }
      else if c = '\"' ∧ s.escape = 0 then { s with state := STATE_ANY }
      else { s with escape := 0 }
  | STATE_IDENTIFIER =>
      if continuesIdentifier c = false then finalize follow s c
      else { s with identifier := s.identifier ++ [c] }
  | STATE_COMMENT_BEGIN =>
      if c = '*' then { s with state := STATE_COMMENT_END }
      else { s with state := STATE_ANY }
  | STATE_COMMENT_END =>
      if c = '*' then { s with state := STATE_COMMENT_END_FIN } else s
  | STATE_COMMENT_END_FIN =>
      if c = '/' then { s with state := STATE_ANY }
      else { s with state := STATE_COMMENT_END }
  | STATE_SKIP_EOL => s

/-- Last statement of the loop body: line and column. -/
def advance (s : State) (c : Char) : State :=
  if c = '\n' then
    { s with
      line := s.line + 1
      col := 0
      state := if s.state = STATE_SKIP_EOL then STATE_ANY else s.state }
  else { s with col := s.col + 1 }

/-- One iteration of the `while ((c = getchar()) != EOF)` loop. -/
def step (follow : Option (List Char)) (s : State) (c : Char) : State :=
  let s1 := lookahead (hashCheck s c) c
  advance (transition follow { s1 with last_state := s1.state } c) c

/-- The loop body of `main` applied, from state `s`, to each of the characters
`input` that the loop handles.  The exit test of the loop and the limits of
the program are in `loopFrom`. -/
def scanFrom (follow : Option (List Char)) (s : State) (input : List Char) : State :=
  input.foldl (step follow) s

/-- The loop body of `main` applied, from program start, to each of the
characters that the loop handles. -/
def scan (follow : Option (List Char)) (input : List Char) : State :=
  scanFrom follow init input



/-- The state after the calls `find_id(x)` for the texts `x` of `xs`, in order. -/
def internAll (s : State) (xs : List (List Char)) : State :=
  xs.foldl (fun t x => (find_id t x).2) s

/-- The identifier text an output line names. -/
def OutLine.name : OutLine → List Char
  | .func name => name
  | .call _ _ name => name

/-- Whether an output line is a call-site report (line number, depth, name). -/
def OutLine.isCall : OutLine → Bool
  | .func _ => false
  | .call _ _ _ => true

/-- Whether, reading `input` from state `s` in follow mode, the scanner meets
the target as a call target at depth 0 of its own count (the variable
`depth`): a step consumes `(` in the identifier state while `depth` is 0 and
the identifier text is the target and is not a keyword.  This is the event
that arms the filter; `calledAtBraceDepth0` is the occurrence in the text. -/
def calledAtTop (target : List Char) (s : State) : List Char → Bool
  | [] => false
  | c :: cs =>
      (decide (s.state = STATE_IDENTIFIER) && decide (c = '(') &&
        decide (cstr s.identifier = target) && decide (cstr s.identifier ∉ keyword) &&
        decide (s.depth = 0))
      || calledAtTop target (step (some target) s c) cs

/-- The symbol table is well formed: no stored identifier is a keyword, none
is stored twice, and `identifier_no` is an ID that has been issued. -/
def TableOK (s : State) : Prop :=
  (∀ x ∈ s.identifiers, x ∉ keyword) ∧ s.identifiers.Nodup ∧
    s.identifier_no < kw_arr_len + s.identifiers.length

/-- No line of the output names a keyword. -/
def OutOK (s : State) : Prop :=
  ∀ o ∈ s.out, o.name ∉ keyword

/-- Whether the character, stored in `char c`, compares equal to `EOF`: the
byte 0xFF, which `c = getchar()` turns into -1 where `char` is signed. -/
def readsEOF (c : Char) : Bool :=
  decide (c.toNat = 255)

/-- The characters that the loop of `main` handles: those before the first
one that compares equal to `EOF`. -/
def charsRead (input : List Char) : List Char :=
  input.takeWhile (fun c => !readsEOF c)

/-- The largest value of an `int`. -/
def INT_MAX : Int := 2147483647

/-- The smallest value of an `int`. -/
def INT_MIN : Int := -2147483648

/-- Whether the loop body on `c` from state `s` stays inside the limits of
the program: in `STATE_IDENTIFIER` the write through `p` (`*p++ = c` or
`*p = 0`) is inside `identifier[30]`, and no `int` (`depth`, `line`, `col`)
is moved out of its range. -/
def stepDefined (s : State) (c : Char) : Bool :=
  (match (hashCheck s c).state with
    | STATE_ANY => decide ((c = '{' → s.depth < INT_MAX) ∧ (c = '}' → INT_MIN < s.depth))
    | STATE_IDENTIFIER => decide (s.identifier.length < 30)
    | _ => true) &&
  (if c = '\n' then decide ((s.line : Int) < INT_MAX) else decide ((s.col : Int) < INT_MAX))

/-- One iteration of the loop with the limits of the program: `none` where
the source writes past the buffer or overflows an `int`. -/
def stepChecked (follow : Option (List Char)) (s : State) (c : Char) : Option State :=
  if stepDefined s c then some (step follow s c) else none

/-- The loop `while ((c = getchar()) != EOF)` from state `s` on the input
`input`: it ends at the end of the input or at the first character that
compares equal to `EOF`; `none` when an iteration leaves the limits of the
program. -/
def loopFrom (follow : Option (List Char)) : State → List Char → Option State
  | s, [] => some s
  | s, c :: cs =>
      if readsEOF c then some s
      else
        match stepChecked follow s c with
        | some t => loopFrom follow t cs
        | none => none

/-- The function `usage`: the two lines it writes to standard error; its
return value is 1. -/
def usage (prog : List Char) : List Char :=
  "usage: ".toList ++ prog ++ "\n       ".toList ++ prog ++ " follow FUNCTION\n".toList

/-- What a run of `main` leaves behind: the exit status, the text on standard
error, the number of characters taken from standard input and the final
state of the globals with the lines on standard output (`none` when the run
left the limits of the program). -/
structure Run where
  status : Nat
  err : List Char
  consumed : Nat
  final : Option State
  deriving DecidableEq, Repr

/-- The function `main` for the argument vector `argv` (`argc` is its length)
and the characters `input` on standard input.  The first `if` statement sets
`follow` or returns `usage(argv[0])`; the loop takes the characters up to and
with the first one that compares equal to `EOF`, or all of them, and `main`
returns 0. -/
def main (argv : List (List Char)) (input : List Char) : Run :=
  if 2 ≤ argv.length then
    if argv.getD 1 [] = "follow".toList then
      if argv.length < 3 then
        { status := 1, err := usage (argv.getD 0 []), consumed := 0, final := some init }
      else
        { status := 0, err := [],
          consumed := min ((charsRead input).length + 1) input.length,
          final := loopFrom (some (argv.getD 2 [])) init input }
    else
      { status := 1, err := usage (argv.getD 0 []), consumed := 0, final := some init }
  else
    { status := 0, err := [],
      consumed := min ((charsRead input).length + 1) input.length,
      final := loopFrom none init input }

/-- The literal state that the quote character `q` opens. -/
def quoteState (q : Char) : ScanState :=
  if q = '\'' then STATE_SQUOTE_END else STATE_DQUOTE_END

/-- Whether `body` is the inside of a literal with quote `q`: a sequence of
items without newlines, each item one character other than `q` and backslash,
or a backslash followed by any one character. -/
def literalBody (q : Char) : List Char → Bool
  | [] => true
  | [c] => decide (c ≠ '\\') && decide (c ≠ q) && decide (c ≠ '\n')
  | c :: x :: rest =>
      if c = '\\' then decide (x ≠ '\n') && literalBody q rest
      else decide (c ≠ q) && decide (c ≠ '\n') && literalBody q (x :: rest)

/-- Whether the step on `c` from state `s` ends an identifier: the `switch`
is entered in `STATE_IDENTIFIER` and `c` does not continue the identifier. -/
def finalizes (s : State) (c : Char) : Bool :=
  decide ((hashCheck s c).state = STATE_IDENTIFIER) && !continuesIdentifier c

/-- The number of identifiers finalized while `input` is read from state `s`. -/
def finalizedCount (follow : Option (List Char)) (s : State) : List Char → Nat
  | [] => 0
  | c :: cs => (if finalizes s c then 1 else 0) + finalizedCount follow (step follow s c) cs

/-- Whether the lookahead check is pending: the last step began in the
identifier state and ended in the normal state. -/
def pendingLookahead (s : State) : Nat :=
  if s.last_state = STATE_IDENTIFIER ∧ s.state = STATE_ANY then 1 else 0

theorem kw_arr_len_eq : kw_arr_len = 35 := by decide

theorem keyword_nodup : keyword.Nodup := by decide

theorem firstMatch_eq_none {x : List Char} {l : List (List Char)} :
    firstMatch x l = none ↔ x ∉ l := by
  induction l with
  | nil => simp [firstMatch]
  | cons y ys ih =>
    by_cases h : x = y
    · simp [firstMatch, h]
    · simp [firstMatch, h, ih]

theorem firstMatch_some {x : List Char} {l : List (List Char)} {i : Nat}
    (h : firstMatch x l = some i) : l[i]? = some x ∧ ∀ j, j < i → l[j]? ≠ some x := by
  induction l generalizing i with
  | nil => simp [firstMatch] at h
  | cons y ys ih =>
    by_cases hxy : x = y
    · simp [firstMatch, hxy] at h
      subst h
      simp [hxy]
    · simp only [firstMatch, hxy, if_false, Option.map_eq_some'] at h
      obtain ⟨k, hk, rfl⟩ := h
      obtain ⟨h1, h2⟩ := ih hk
      refine ⟨by simpa using h1, ?_⟩
      intro j hj
      cases j with
      | zero => simpa using fun h => hxy h.symm
      | succ j => simpa using h2 j (by omega)

theorem firstMatch_lt {x : List Char} {l : List (List Char)} {i : Nat}
    (h : firstMatch x l = some i) : i < l.length :=
  (List.getElem?_eq_some.1 (firstMatch_some h).1).1

theorem firstMatch_mem {x : List Char} {l : List (List Char)} {i : Nat}
    (h : firstMatch x l = some i) : x ∈ l := by
  by_contra hx
  rw [firstMatch_eq_none.2 hx] at h
  cases h

theorem firstMatch_append_of_some {x : List Char} {l : List (List Char)} {i : Nat}
    (h : firstMatch x l = some i) (l2 : List (List Char)) : firstMatch x (l ++ l2) = some i := by
  induction l generalizing i with
  | nil => simp [firstMatch] at h
  | cons y ys ih =>
    by_cases hxy : x = y
    · simpa [firstMatch, hxy] using h
    · simp only [firstMatch, hxy, if_false, Option.map_eq_some'] at h
      obtain ⟨k, hk, rfl⟩ := h
      simp [firstMatch, hxy, ih hk]

theorem firstMatch_append_self {x : List Char} {l : List (List Char)}
    (h : x ∉ l) (l2 : List (List Char)) : firstMatch x (l ++ x :: l2) = some l.length := by
  induction l with
  | nil => simp [firstMatch]
  | cons y ys ih =>
    have hxy : x ≠ y := fun e => h (by simp [e])
    have hys : x ∉ ys := fun e => h (by simp [e])
    simp [firstMatch, hxy, ih hys]

/-- The ID `find_id` returns, in terms of the two searches. -/
theorem find_id_fst (s : State) (x : List Char) :
    (find_id s x).1 =
      match firstMatch x keyword with
      | some i => i
      | none => kw_arr_len + (firstMatch x s.identifiers).getD s.identifiers.length := by
  unfold find_id
  cases firstMatch x keyword with
  | some i => rfl
  | none =>
    cases firstMatch x s.identifiers with
    | some i => rfl
    | none => rfl

/-- A text that is a keyword or already stored leaves the state as it is. -/
theorem find_id_snd_of_mem (s : State) (x : List Char) (h : x ∈ keyword ∨ x ∈ s.identifiers) :
    (find_id s x).2 = s := by
  unfold find_id
  cases hk : firstMatch x keyword with
  | some i => rfl
  | none =>
    cases hi : firstMatch x s.identifiers with
    | some i => rfl
    | none =>
      exact absurd h (not_or.2 ⟨firstMatch_eq_none.1 hk, firstMatch_eq_none.1 hi⟩)

/-- A new text is appended to the identifier list. -/
theorem find_id_identifiers_of_not_mem (s : State) (x : List Char)
    (hk : x ∉ keyword) (hi : x ∉ s.identifiers) :
    (find_id s x).2.identifiers = s.identifiers ++ [x] := by
  unfold find_id
  rw [firstMatch_eq_none.2 hk, firstMatch_eq_none.2 hi]

theorem find_id_identifiers (s : State) (x : List Char) :
    (find_id s x).2.identifiers =
      if x ∈ keyword ∨ x ∈ s.identifiers then s.identifiers else s.identifiers ++ [x] := by
  by_cases h : x ∈ keyword ∨ x ∈ s.identifiers
  · rw [find_id_snd_of_mem s x h, if_pos h]
  · rw [if_neg h]
    exact find_id_identifiers_of_not_mem s x (not_or.1 h).1 (not_or.1 h).2

/-- After `find_id(x)` the text is a keyword or is stored. -/
theorem find_id_mem (s : State) (x : List Char) :
    x ∈ keyword ∨ x ∈ (find_id s x).2.identifiers := by
  rw [find_id_identifiers]
  by_cases h : x ∈ keyword ∨ x ∈ s.identifiers
  · rw [if_pos h]; exact h
  · rw [if_neg h]; exact Or.inr (by simp)

theorem find_id_extends (s : State) (x : List Char) :
    s.identifiers <+: (find_id s x).2.identifiers := by
  rw [find_id_identifiers]
  split
  · exact List.prefix_refl _
  · exact List.prefix_append _ _

theorem internAll_extends (s : State) (xs : List (List Char)) :
    s.identifiers <+: (internAll s xs).identifiers := by
  induction xs generalizing s with
  | nil => exact List.prefix_refl _
  | cons x xs ih => exact (find_id_extends s x).trans (ih _)

/-- The ID of a keyword or stored text is the same in every extension of the list. -/
theorem find_id_fst_of_extends (s t : State) (x : List Char)
    (hp : s.identifiers <+: t.identifiers) (h : x ∈ keyword ∨ x ∈ s.identifiers) :
    (find_id t x).1 = (find_id s x).1 := by
  rw [find_id_fst, find_id_fst]
  cases hk : firstMatch x keyword with
  | some i => rfl
  | none =>
    have hi : x ∈ s.identifiers := h.resolve_left (firstMatch_eq_none.1 hk)
    obtain ⟨l2, hl2⟩ := hp
    cases hs : firstMatch x s.identifiers with
    | none => exact absurd hi (firstMatch_eq_none.1 hs)
    | some i =>
      simp only []
      rw [← hl2, firstMatch_append_of_some hs]
      rfl

theorem is_keyword_iff (idn : Nat) : is_keyword idn = true ↔ idn < kw_arr_len := by
  simp [is_keyword]

/-- The text of an ID in range is the same in every extension of the list. -/
theorem id_as_str_of_extends (s t : State) (idn : Nat)
    (hp : s.identifiers <+: t.identifiers) (h : idn < kw_arr_len + s.identifiers.length) :
    id_as_str t idn = id_as_str s idn := by
  unfold id_as_str
  by_cases hk : is_keyword idn = true
  · simp [hk]
  · simp only [hk]
    have hlt : idn - kw_arr_len < s.identifiers.length := by
      have := (is_keyword_iff idn).not.1 hk
      omega
    obtain ⟨l2, hl2⟩ := hp
    simp only [Bool.false_eq_true, if_false]
    rw [← hl2, List.getElem?_append_left hlt]

/-- The text of the ID that `find_id(x)` returned is `x`. -/
theorem id_as_str_find_id (s : State) (x : List Char) :
    id_as_str (find_id s x).2 (find_id s x).1 = some x := by
  unfold id_as_str
  rw [find_id_fst]
  cases hk : firstMatch x keyword with
  | some i =>
    have := firstMatch_lt hk
    simp only [is_keyword, kw_arr_len, this, decide_True, if_true]
    exact (firstMatch_some hk).1
  | none =>
    have hnk : ¬ (kw_arr_len + (firstMatch x s.identifiers).getD s.identifiers.length < kw_arr_len) := by
      omega
    simp only [is_keyword, hnk, decide_False, Bool.false_eq_true, if_false, Nat.add_sub_cancel_left]
    cases hi : firstMatch x s.identifiers with
    | some i =>
      rw [find_id_snd_of_mem s x (Or.inr (firstMatch_mem hi))]
      exact (firstMatch_some hi).1
    | none =>
      rw [find_id_identifiers_of_not_mem s x (firstMatch_eq_none.1 hk) (firstMatch_eq_none.1 hi)]
      simp

/-- The ID that `find_id` returns is in range of the table after the call. -/
theorem find_id_fst_lt (s : State) (x : List Char) :
    (find_id s x).1 < kw_arr_len + (find_id s x).2.identifiers.length := by
  have h := id_as_str_find_id s x
  unfold id_as_str at h
  by_cases hk : is_keyword (find_id s x).1 = true
  · have := (is_keyword_iff _).1 hk
    omega
  · simp only [hk, Bool.false_eq_true, if_false] at h
    have := (List.getElem?_eq_some.1 h).1
    have := (is_keyword_iff _).not.1 hk
    omega

/-- A second `find_id(x)` returns the same ID and changes nothing. -/
theorem find_id_idem (s : State) (x : List Char) :
    find_id (find_id s x).2 x = ((find_id s x).1, (find_id s x).2) := by
  have hm := find_id_mem s x
  have h1 : (find_id (find_id s x).2 x).2 = (find_id s x).2 := find_id_snd_of_mem _ x hm
  have h2 : (find_id (find_id s x).2 x).1 = (find_id s x).1 := by
    by_cases h : x ∈ keyword ∨ x ∈ s.identifiers
    · rw [find_id_snd_of_mem s x h]
    · obtain ⟨hk, hi⟩ := not_or.1 h
      rw [find_id_fst, find_id_fst, find_id_identifiers_of_not_mem s x hk hi,
        firstMatch_eq_none.2 hk, firstMatch_eq_none.2 hi]
      simp only []
      have := firstMatch_append_self hi []
      rw [this]
      rfl
  exact Prod.ext h2 h1


/-! ## The parts of a step, field by field -/

theorem hashCheck_eq (s : State) (c : Char) :
    hashCheck s c = { s with state := (hashCheck s c).state } := by
  unfold hashCheck; split <;> rfl

theorem lookahead_eq (s : State) (c : Char) :
    lookahead s c = { s with out := (lookahead s c).out } := by
  unfold lookahead; split <;> rfl

theorem advance_eq (s : State) (c : Char) :
    advance s c = { s with line := (advance s c).line, col := (advance s c).col,
                           state := (advance s c).state } := by
  unfold advance; split <;> rfl

theorem check_follow_eq (follow : Option (List Char)) (s : State) (w : List Char) :
    check_follow follow s w = { s with follow_on := (check_follow follow s w).follow_on } := by
  unfold check_follow
  split
  · split
    · rfl
    · split <;> rfl
  · rfl

theorem report_eq (follow : Option (List Char)) (s : State) (c : Char) :
    report follow s c = { s with follow_on := (report follow s c).follow_on,
                                 out := (report follow s c).out } := by
  unfold report
  split
  · simp only []
    split
    · rw [check_follow_eq]
    · rw [check_follow_eq]
  · rfl

theorem find_id_eq (s : State) (x : List Char) :
    (find_id s x).2 = { s with identifiers := (find_id s x).2.identifiers,
                               alloc_identifiers := (find_id s x).2.alloc_identifiers } := by
  unfold find_id
  split
  · rfl
  · split <;> rfl

theorem finalize_line (follow : Option (List Char)) (s : State) (c : Char) :
    (finalize follow s c).line = s.line := by
  unfold finalize
  simp only []
  rw [report_eq, find_id_eq]

theorem finalize_col (follow : Option (List Char)) (s : State) (c : Char) :
    (finalize follow s c).col = s.col := by
  unfold finalize
  simp only []
  rw [report_eq, find_id_eq]

theorem transition_line (follow : Option (List Char)) (s : State) (c : Char) :
    (transition follow s c).line = s.line := by
  unfold transition
  split <;> (repeat' split) <;> first | rfl | exact finalize_line follow s c

theorem transition_col (follow : Option (List Char)) (s : State) (c : Char) :
    (transition follow s c).col = s.col := by
  unfold transition
  split <;> (repeat' split) <;> first | rfl | exact finalize_col follow s c

theorem step_line (follow : Option (List Char)) (s : State) (c : Char) :
    (step follow s c).line = if c = '\n' then s.line + 1 else s.line := by
  unfold step
  simp only []
  have h : ∀ t : State, (advance t c).line = if c = '\n' then t.line + 1 else t.line := by
    intro t; unfold advance; split <;> simp [*]
  rw [h, transition_line, lookahead_eq, hashCheck_eq]

theorem step_col (follow : Option (List Char)) (s : State) (c : Char) :
    (step follow s c).col = if c = '\n' then 0 else s.col + 1 := by
  unfold step
  simp only []
  have h : ∀ t : State, (advance t c).col = if c = '\n' then 0 else t.col + 1 := by
    intro t; unfold advance; split <;> simp [*]
  rw [h, transition_col, lookahead_eq, hashCheck_eq]

theorem scanFrom_nil (follow : Option (List Char)) (s : State) : scanFrom follow s [] = s := rfl

theorem scanFrom_cons (follow : Option (List Char)) (s : State) (c : Char) (cs : List Char) :
    scanFrom follow s (c :: cs) = scanFrom follow (step follow s c) cs := rfl

theorem scanFrom_append (follow : Option (List Char)) (s : State) (xs ys : List Char) :
    scanFrom follow s (xs ++ ys) = scanFrom follow (scanFrom follow s xs) ys := by
  simp [scanFrom, List.foldl_append]

theorem scanFrom_snoc (follow : Option (List Char)) (s : State) (xs : List Char) (c : Char) :
    scanFrom follow s (xs ++ [c]) = step follow (scanFrom follow s xs) c := by
  simp [scanFrom, List.foldl_append]


/-! ## What a step prints -/

theorem id_as_str_congr (s t : State) (idn : Nat) (h : t.identifiers = s.identifiers) :
    id_as_str t idn = id_as_str s idn := by
  unfold id_as_str; rw [h]

theorem check_follow_follow_on (follow : Option (List Char)) (s t : State) (w : List Char)
    (h1 : t.follow_on = s.follow_on) (h2 : t.depth = s.depth) :
    (check_follow follow t w).follow_on = (check_follow follow s w).follow_on := by
  unfold check_follow
  cases follow with
  | none => rfl
  | some target =>
    simp only [h1, h2]
    split
    · rfl
    · split
      · rfl
      · exact h1

theorem lookahead_out (s : State) (c : Char) :
    (lookahead s c).out = s.out ++
      if s.last_state = STATE_IDENTIFIER ∧ s.state = STATE_ANY ∧ c = '(' ∧
          is_keyword s.identifier_no = false
      then [OutLine.func ((id_as_str s s.identifier_no).getD [])] else [] := by
  unfold lookahead
  split <;> simp

theorem report_out (follow : Option (List Char)) (s : State) (c : Char) :
    (report follow s c).out = s.out ++
      if c = '(' ∧ is_keyword s.identifier_no = false ∧
          (follow = none ∨ ((check_follow follow s (cstr s.identifier)).follow_on ≠ -1 ∧
            (check_follow follow s (cstr s.identifier)).follow_on ≠ s.depth))
      then [OutLine.call s.line s.depth ((id_as_str s s.identifier_no).getD [])] else [] := by
  unfold report
  have e := check_follow_eq follow s (cstr s.identifier)
  by_cases h1 : c = '(' ∧ is_keyword s.identifier_no = false
  · rw [if_pos h1]
    simp only []
    by_cases h2 : follow = none ∨ ((check_follow follow s (cstr s.identifier)).follow_on ≠ -1 ∧
            (check_follow follow s (cstr s.identifier)).follow_on ≠ s.depth)
    · have h2' : follow = none ∨ ((check_follow follow s (cstr s.identifier)).follow_on ≠ -1 ∧
            (check_follow follow s (cstr s.identifier)).follow_on ≠
              (check_follow follow s (cstr s.identifier)).depth) := by
        rw [e]; exact h2
      rw [if_pos h2', if_pos ⟨h1.1, h1.2, h2⟩]
      rw [e]
      rfl
    · have h2' : ¬ (follow = none ∨ ((check_follow follow s (cstr s.identifier)).follow_on ≠ -1 ∧
            (check_follow follow s (cstr s.identifier)).follow_on ≠
              (check_follow follow s (cstr s.identifier)).depth)) := by
        rw [e]; exact h2
      rw [if_neg h2', if_neg (fun h => h2 h.2.2)]
      rw [e]
      simp
  · rw [if_neg h1, if_neg (fun h => h1 ⟨h.1, h.2.1⟩)]
    simp

theorem report_follow_on (follow : Option (List Char)) (s : State) (c : Char) :
    (report follow s c).follow_on =
      if c = '(' ∧ is_keyword s.identifier_no = false
      then (check_follow follow s (cstr s.identifier)).follow_on else s.follow_on := by
  unfold report
  split
  · simp only []
    split <;> rfl
  · rfl

/-- The state handed to `report` when an identifier ends. -/
theorem finalize_def (follow : Option (List Char)) (s : State) (c : Char) :
    finalize follow s c =
      { report follow
          { (find_id s (cstr s.identifier)).2 with
            identifier_no := (find_id s (cstr s.identifier)).1
            finished_identifier := cstr s.identifier } c with state := STATE_ANY } := rfl

theorem advance_out (s : State) (c : Char) : (advance s c).out = s.out := by
  rw [advance_eq]

theorem advance_follow_on (s : State) (c : Char) : (advance s c).follow_on = s.follow_on := by
  rw [advance_eq]

theorem advance_depth (s : State) (c : Char) : (advance s c).depth = s.depth := by
  rw [advance_eq]

theorem hashCheck_of_ne (s : State) (c : Char) (h : c ≠ '#') : hashCheck s c = s := by
  unfold hashCheck
  rw [if_neg (fun hh => h hh.2)]

theorem lookahead_of_state_ne (s : State) (c : Char) (h : s.state ≠ STATE_ANY) :
    lookahead s c = s := by
  unfold lookahead
  rw [if_neg (fun hh => h hh.2.1)]

theorem is_keyword_find_id (s : State) (x : List Char) :
    is_keyword (find_id s x).1 = true ↔ x ∈ keyword := by
  rw [is_keyword_iff, find_id_fst]
  cases hk : firstMatch x keyword with
  | some i => simpa [firstMatch_mem hk] using firstMatch_lt hk
  | none => simpa using firstMatch_eq_none.1 hk

/-- The end of a non-keyword identifier at `(`: what is printed, and the
follow state after it. -/
theorem finalize_call_site (follow : Option (List Char)) (s : State)
    (hw : cstr s.identifier ∉ keyword) :
    (finalize follow s '(').out = s.out ++
      (if follow = none ∨ ((check_follow follow s (cstr s.identifier)).follow_on ≠ -1 ∧
            (check_follow follow s (cstr s.identifier)).follow_on ≠ s.depth)
       then [OutLine.call s.line s.depth (cstr s.identifier)] else []) ∧
    (finalize follow s '(').follow_on = (check_follow follow s (cstr s.identifier)).follow_on ∧
    (finalize follow s '(').depth = s.depth := by
  obtain ⟨s1, hs1⟩ : ∃ s1 : State, s1 =
      { (find_id s (cstr s.identifier)).2 with
        identifier_no := (find_id s (cstr s.identifier)).1
        finished_identifier := cstr s.identifier } := ⟨_, rfl⟩
  have hfin : finalize follow s '(' = { report follow s1 '(' with state := STATE_ANY } := by
    rw [hs1, finalize_def]
  have hno : s1.identifier_no = (find_id s (cstr s.identifier)).1 := by rw [hs1]
  have hnk : is_keyword s1.identifier_no = false := by
    have := (is_keyword_find_id s (cstr s.identifier)).not.2 hw
    rw [hno]
    simpa using this
  have hfd : s1.depth = s.depth := by rw [hs1, find_id_eq]
  have hff : s1.follow_on = s.follow_on := by rw [hs1, find_id_eq]
  have hfl : s1.line = s.line := by rw [hs1, find_id_eq]
  have hfo : s1.out = s.out := by rw [hs1, find_id_eq]
  have hfi : s1.identifier = s.identifier := by rw [hs1, find_id_eq]
  have hcf := check_follow_follow_on follow s s1 (cstr s.identifier) hff hfd
  have hid : (id_as_str s1 s1.identifier_no).getD [] = cstr s.identifier := by
    rw [hno, id_as_str_congr (find_id s (cstr s.identifier)).2 s1 _ (by rw [hs1]),
      id_as_str_find_id]
    rfl
  have hout : (finalize follow s '(').out = (report follow s1 '(').out := by rw [hfin]
  have hfol : (finalize follow s '(').follow_on = (report follow s1 '(').follow_on := by rw [hfin]
  have hdep : (finalize follow s '(').depth = (report follow s1 '(').depth := by rw [hfin]
  rw [hout, hfol, hdep, report_out, report_follow_on, hfi, hcf, hid, hfd, hfl, hfo]
  refine ⟨?_, ?_, ?_⟩
  · simp only [hnk, true_and]
  · rw [if_pos ⟨rfl, hnk⟩]
  · rw [report_eq]; exact hfd

/-- The step that consumes `(` in the identifier state, for an identifier
that is not a keyword: what is printed, and the follow state after it. -/
theorem step_call_site (follow : Option (List Char)) (s : State)
    (hs : s.state = STATE_IDENTIFIER) (hw : cstr s.identifier ∉ keyword) :
    (step follow s '(').out = s.out ++
      (if follow = none ∨ ((check_follow follow s (cstr s.identifier)).follow_on ≠ -1 ∧
            (check_follow follow s (cstr s.identifier)).follow_on ≠ s.depth)
       then [OutLine.call s.line s.depth (cstr s.identifier)] else []) ∧
    (step follow s '(').follow_on = (check_follow follow s (cstr s.identifier)).follow_on ∧
    (step follow s '(').depth = s.depth := by
  have hstep : step follow s '(' =
      advance (finalize follow { s with last_state := STATE_IDENTIFIER } '(') '(' := by
    unfold step
    simp only []
    rw [hashCheck_of_ne s '(' (by decide), lookahead_of_state_ne s '(' (by rw [hs]; decide)]
    unfold transition
    simp only [hs]
    rw [if_pos (by decide)]
  rw [hstep, advance_out, advance_follow_on, advance_depth]
  have h := finalize_call_site follow { s with last_state := STATE_IDENTIFIER } hw
  have hcf := check_follow_follow_on follow s { s with last_state := STATE_IDENTIFIER }
    (cstr s.identifier) rfl rfl
  simp only [hcf] at h
  exact h


/-! ## The output never names a keyword -/

/-- Outside the end of an identifier the `switch` touches only the lexical
state, the buffer, the depth and the escape flag. -/
theorem transition_eq_of_not_finalize (follow : Option (List Char)) (s : State) (c : Char)
    (h : ¬ (s.state = STATE_IDENTIFIER ∧ continuesIdentifier c = false)) :
    transition follow s c =
      { s with state := (transition follow s c).state,
               identifier := (transition follow s c).identifier,
               depth := (transition follow s c).depth,
               escape := (transition follow s c).escape } := by
  unfold transition
  split <;> (repeat' split) <;> first | rfl | (rename_i h1 h2; exact absurd ⟨h1, h2⟩ h)

theorem transition_eq_finalize (follow : Option (List Char)) (s : State) (c : Char)
    (h : s.state = STATE_IDENTIFIER ∧ continuesIdentifier c = false) :
    transition follow s c = finalize follow s c := by
  unfold transition
  simp only [h.1]
  rw [if_pos h.2]

theorem tableOK_find_id (s : State) (x : List Char) (h : TableOK s) :
    TableOK { (find_id s x).2 with identifier_no := (find_id s x).1, finished_identifier := x } := by
  obtain ⟨h1, h2, _⟩ := h
  refine ⟨?_, ?_, find_id_fst_lt s x⟩
  · show ∀ y ∈ (find_id s x).2.identifiers, y ∉ keyword
    rw [find_id_identifiers]
    by_cases hm : x ∈ keyword ∨ x ∈ s.identifiers
    · rw [if_pos hm]; exact h1
    · rw [if_neg hm]
      intro y hy
      rcases List.mem_append.1 hy with hy | hy
      · exact h1 y hy
      · rw [List.mem_singleton.1 hy]; exact (not_or.1 hm).1
  · show (find_id s x).2.identifiers.Nodup
    rw [find_id_identifiers]
    by_cases hm : x ∈ keyword ∨ x ∈ s.identifiers
    · rw [if_pos hm]; exact h2
    · rw [if_neg hm]
      exact List.Nodup.append h2 (List.nodup_singleton x)
        (by simpa using (not_or.1 hm).2)

/-- The text printed for an ID that is no keyword ID is a stored identifier,
hence no keyword. -/
theorem name_not_keyword (s : State) (idn : Nat) (h : TableOK s)
    (hk : is_keyword idn = false) : (id_as_str s idn).getD [] ∉ keyword := by
  unfold id_as_str
  rw [hk]
  simp only [Bool.false_eq_true, if_false]
  cases hg : s.identifiers[idn - kw_arr_len]? with
  | none => decide
  | some x => exact h.1 x (List.getElem?_mem hg)

theorem outOK_append (s : State) (l : List OutLine) (h : OutOK s)
    (hl : ∀ o ∈ l, o.name ∉ keyword) : ∀ o ∈ s.out ++ l, o.name ∉ keyword := by
  intro o ho
  rcases List.mem_append.1 ho with ho | ho
  · exact h o ho
  · exact hl o ho

theorem report_ok (follow : Option (List Char)) (s : State) (c : Char)
    (h : TableOK s) (ho : OutOK s) :
    TableOK (report follow s c) ∧ OutOK (report follow s c) := by
  refine ⟨?_, ?_⟩
  · rw [report_eq]; exact h
  · unfold OutOK
    rw [report_out]
    refine outOK_append s _ ho ?_
    split
    · rename_i hc
      intro o hmem
      rw [List.mem_singleton.1 hmem]
      exact name_not_keyword s _ h hc.2.1
    · intro o hmem; cases hmem

theorem finalize_ok (follow : Option (List Char)) (s : State) (c : Char)
    (h : TableOK s) (ho : OutOK s) :
    TableOK (finalize follow s c) ∧ OutOK (finalize follow s c) := by
  have h1 := tableOK_find_id s (cstr s.identifier) h
  have ho1 : OutOK { (find_id s (cstr s.identifier)).2 with
      identifier_no := (find_id s (cstr s.identifier)).1
      finished_identifier := cstr s.identifier } := by
    unfold OutOK
    simp only []
    rw [find_id_eq]
    exact ho
  have := report_ok follow _ c h1 ho1
  rw [finalize_def]
  exact this

theorem transition_ok (follow : Option (List Char)) (s : State) (c : Char)
    (h : TableOK s) (ho : OutOK s) :
    TableOK (transition follow s c) ∧ OutOK (transition follow s c) := by
  by_cases hf : s.state = STATE_IDENTIFIER ∧ continuesIdentifier c = false
  · rw [transition_eq_finalize follow s c hf]
    exact finalize_ok follow s c h ho
  · rw [transition_eq_of_not_finalize follow s c hf]
    exact ⟨h, ho⟩

theorem step_ok (follow : Option (List Char)) (s : State) (c : Char)
    (h : TableOK s) (ho : OutOK s) :
    TableOK (step follow s c) ∧ OutOK (step follow s c) := by
  have hh : TableOK (hashCheck s c) ∧ OutOK (hashCheck s c) := by
    rw [hashCheck_eq]; exact ⟨h, ho⟩
  have hl : TableOK (lookahead (hashCheck s c) c) ∧ OutOK (lookahead (hashCheck s c) c) := by
    refine ⟨?_, ?_⟩
    · rw [lookahead_eq]; exact hh.1
    · unfold OutOK
      rw [lookahead_out]
      refine outOK_append _ _ hh.2 ?_
      split
      · rename_i hc
        intro o hmem
        rw [List.mem_singleton.1 hmem]
        exact name_not_keyword _ _ hh.1 hc.2.2.2
      · intro o hmem; cases hmem
  have ht := transition_ok follow
    { lookahead (hashCheck s c) c with last_state := (lookahead (hashCheck s c) c).state } c
    hl.1 hl.2
  unfold step
  simp only []
  rw [advance_eq]
  exact ht

theorem init_ok : TableOK init ∧ OutOK init := by
  refine ⟨⟨?_, ?_, ?_⟩, ?_⟩
  · intro x hx; cases hx
  · exact List.nodup_nil
  · decide
  · intro o ho; cases ho

theorem scanFrom_ok (follow : Option (List Char)) (s : State) (input : List Char)
    (h : TableOK s) (ho : OutOK s) :
    TableOK (scanFrom follow s input) ∧ OutOK (scanFrom follow s input) := by
  induction input generalizing s with
  | nil => exact ⟨h, ho⟩
  | cons c cs ih =>
    rw [scanFrom_cons]
    exact ih _ (step_ok follow s c h ho).1 (step_ok follow s c h ho).2


/-! ## The output and the follow state after a step -/

theorem continuesIdentifier_paren : continuesIdentifier '(' = false := by decide

/-- The end of an identifier that is not a call site prints nothing and
leaves the follow state as it is. -/
theorem finalize_no_call (follow : Option (List Char)) (s : State) (c : Char)
    (h : ¬ (c = '(' ∧ cstr s.identifier ∉ keyword)) :
    (finalize follow s c).out = s.out ∧ (finalize follow s c).follow_on = s.follow_on := by
  obtain ⟨s1, hs1⟩ : ∃ s1 : State, s1 =
      { (find_id s (cstr s.identifier)).2 with
        identifier_no := (find_id s (cstr s.identifier)).1
        finished_identifier := cstr s.identifier } := ⟨_, rfl⟩
  have hfin : finalize follow s c = { report follow s1 c with state := STATE_ANY } := by
    rw [hs1, finalize_def]
  have hno : s1.identifier_no = (find_id s (cstr s.identifier)).1 := by rw [hs1]
  have hff : s1.follow_on = s.follow_on := by rw [hs1, find_id_eq]
  have hfo : s1.out = s.out := by rw [hs1, find_id_eq]
  have hc : ¬ (c = '(' ∧ is_keyword s1.identifier_no = false) := by
    rintro ⟨h1, h2⟩
    refine h ⟨h1, fun hk => ?_⟩
    rw [hno, (is_keyword_find_id s (cstr s.identifier)).2 hk] at h2
    cases h2
  have hr : report follow s1 c = s1 := by
    unfold report
    rw [if_neg hc]
  have hout : (finalize follow s c).out = (report follow s1 c).out := by rw [hfin]
  have hfol : (finalize follow s c).follow_on = (report follow s1 c).follow_on := by rw [hfin]
  rw [hout, hfol, hr]
  exact ⟨hfo, hff⟩

/-- The `switch` statement: what it prints and the follow state after it. -/
theorem transition_out_follow (follow : Option (List Char)) (s : State) (c : Char) :
    (transition follow s c).out = s.out ++
      (if s.state = STATE_IDENTIFIER ∧ c = '(' ∧ cstr s.identifier ∉ keyword ∧
          (follow = none ∨ ((check_follow follow s (cstr s.identifier)).follow_on ≠ -1 ∧
            (check_follow follow s (cstr s.identifier)).follow_on ≠ s.depth))
       then [OutLine.call s.line s.depth (cstr s.identifier)] else []) ∧
    (transition follow s c).follow_on =
      (if s.state = STATE_IDENTIFIER ∧ c = '(' ∧ cstr s.identifier ∉ keyword
       then (check_follow follow s (cstr s.identifier)).follow_on else s.follow_on) := by
  by_cases hf : s.state = STATE_IDENTIFIER ∧ continuesIdentifier c = false
  · rw [transition_eq_finalize follow s c hf]
    by_cases hc : c = '(' ∧ cstr s.identifier ∉ keyword
    · obtain ⟨rfl, hw⟩ := hc
      obtain ⟨h1, h2, _⟩ := finalize_call_site follow s hw
      have p2 : s.state = STATE_IDENTIFIER ∧ '(' = '(' ∧ cstr s.identifier ∉ keyword :=
        ⟨hf.1, rfl, hw⟩
      rw [h1, h2, if_pos p2]
      refine ⟨?_, rfl⟩
      congr 1
      by_cases hA : follow = none ∨
          ((check_follow follow s (cstr s.identifier)).follow_on ≠ -1 ∧
            (check_follow follow s (cstr s.identifier)).follow_on ≠ s.depth)
      · rw [if_pos hA, if_pos ⟨hf.1, rfl, hw, hA⟩]
      · rw [if_neg hA, if_neg (fun h => hA h.2.2.2)]
    · obtain ⟨h1, h2⟩ := finalize_no_call follow s c hc
      have n1 : ¬ (s.state = STATE_IDENTIFIER ∧ c = '(' ∧ cstr s.identifier ∉ keyword ∧
          (follow = none ∨ ((check_follow follow s (cstr s.identifier)).follow_on ≠ -1 ∧
            (check_follow follow s (cstr s.identifier)).follow_on ≠ s.depth))) :=
        fun h => hc ⟨h.2.1, h.2.2.1⟩
      have n2 : ¬ (s.state = STATE_IDENTIFIER ∧ c = '(' ∧ cstr s.identifier ∉ keyword) :=
        fun h => hc ⟨h.2.1, h.2.2⟩
      rw [h1, h2, if_neg n1, if_neg n2]
      exact ⟨(List.append_nil _).symm, rfl⟩
  · have hn : ¬ (s.state = STATE_IDENTIFIER ∧ c = '(') := by
      rintro ⟨h1, h2⟩
      exact hf ⟨h1, by rw [h2]; exact continuesIdentifier_paren⟩
    have n1 : ¬ (s.state = STATE_IDENTIFIER ∧ c = '(' ∧ cstr s.identifier ∉ keyword ∧
        (follow = none ∨ ((check_follow follow s (cstr s.identifier)).follow_on ≠ -1 ∧
          (check_follow follow s (cstr s.identifier)).follow_on ≠ s.depth))) :=
      fun h => hn ⟨h.1, h.2.1⟩
    have n2 : ¬ (s.state = STATE_IDENTIFIER ∧ c = '(' ∧ cstr s.identifier ∉ keyword) :=
      fun h => hn ⟨h.1, h.2.1⟩
    rw [transition_eq_of_not_finalize follow s c hf, if_neg n1, if_neg n2]
    exact ⟨(List.append_nil _).symm, rfl⟩

/-- One step: what it prints and the follow state after it.  The first list
is the line of the lookahead check, the second the report of a call site. -/
theorem step_out_follow (follow : Option (List Char)) (s : State) (c : Char) :
    (step follow s c).out = s.out ++
      (if s.last_state = STATE_IDENTIFIER ∧ s.state = STATE_ANY ∧ c = '(' ∧
          is_keyword s.identifier_no = false
       then [OutLine.func ((id_as_str s s.identifier_no).getD [])] else []) ++
      (if s.state = STATE_IDENTIFIER ∧ c = '(' ∧ cstr s.identifier ∉ keyword ∧
          (follow = none ∨ ((check_follow follow s (cstr s.identifier)).follow_on ≠ -1 ∧
            (check_follow follow s (cstr s.identifier)).follow_on ≠ s.depth))
       then [OutLine.call s.line s.depth (cstr s.identifier)] else []) ∧
    (step follow s c).follow_on =
      (if s.state = STATE_IDENTIFIER ∧ c = '(' ∧ cstr s.identifier ∉ keyword
       then (check_follow follow s (cstr s.identifier)).follow_on else s.follow_on) := by
  obtain ⟨s2, hs2⟩ : ∃ s2 : State, s2 =
      { lookahead (hashCheck s c) c with last_state := (lookahead (hashCheck s c) c).state } :=
    ⟨_, rfl⟩
  have hstep : step follow s c = advance (transition follow s2 c) c := by rw [hs2]; rfl
  by_cases hc : c = '('
  · subst hc
    have hh : hashCheck s '(' = s := hashCheck_of_ne s '(' (by decide)
    rw [hh] at hs2
    have e1 : s2.state = s.state := by rw [hs2, lookahead_eq]
    have e2 : s2.identifier = s.identifier := by rw [hs2, lookahead_eq]
    have e3 : s2.line = s.line := by rw [hs2, lookahead_eq]
    have e4 : s2.depth = s.depth := by rw [hs2, lookahead_eq]
    have e5 : s2.follow_on = s.follow_on := by rw [hs2, lookahead_eq]
    have e6 : s2.out = (lookahead s '(').out := by rw [hs2]
    have hcf := check_follow_follow_on follow s s2 (cstr s.identifier) e5 e4
    obtain ⟨h1, h2⟩ := transition_out_follow follow s2 '('
    rw [hstep, advance_out, advance_follow_on, h1, h2, e1, e2, e3, e4, e5, e6, hcf,
      lookahead_out]
    exact ⟨rfl, rfl⟩
  · have e1 : s2.follow_on = s.follow_on := by rw [hs2, lookahead_eq, hashCheck_eq]
    have e2 : s2.out = s.out := by
      rw [hs2]
      show (lookahead (hashCheck s c) c).out = s.out
      have n0 : ¬ ((hashCheck s c).last_state = STATE_IDENTIFIER ∧
          (hashCheck s c).state = STATE_ANY ∧ c = '(' ∧
          is_keyword (hashCheck s c).identifier_no = false) := fun h => hc h.2.2.1
      rw [lookahead_out, if_neg n0, List.append_nil, hashCheck_eq]
    obtain ⟨h1, h2⟩ := transition_out_follow follow s2 c
    have n1 : ¬ (s2.state = STATE_IDENTIFIER ∧ c = '(' ∧ cstr s2.identifier ∉ keyword ∧
        (follow = none ∨ ((check_follow follow s2 (cstr s2.identifier)).follow_on ≠ -1 ∧
          (check_follow follow s2 (cstr s2.identifier)).follow_on ≠ s2.depth))) :=
      fun h => hc h.2.1
    have n2 : ¬ (s2.state = STATE_IDENTIFIER ∧ c = '(' ∧ cstr s2.identifier ∉ keyword) :=
      fun h => hc h.2.1
    have n3 : ¬ (s.last_state = STATE_IDENTIFIER ∧ s.state = STATE_ANY ∧ c = '(' ∧
          is_keyword s.identifier_no = false) := fun h => hc h.2.2.1
    have n4 : ¬ (s.state = STATE_IDENTIFIER ∧ c = '(' ∧ cstr s.identifier ∉ keyword ∧
        (follow = none ∨ ((check_follow follow s (cstr s.identifier)).follow_on ≠ -1 ∧
          (check_follow follow s (cstr s.identifier)).follow_on ≠ s.depth))) :=
      fun h => hc h.2.1
    have n5 : ¬ (s.state = STATE_IDENTIFIER ∧ c = '(' ∧ cstr s.identifier ∉ keyword) :=
      fun h => hc h.2.1
    rw [hstep, advance_out, advance_follow_on, h1, h2, if_neg n1, if_neg n2, if_neg n3,
      if_neg n4, if_neg n5, e1, e2]
    exact ⟨by simp, rfl⟩


/-! ## Lines and columns -/

theorem scan_nil (follow : Option (List Char)) : scan follow [] = init := rfl

theorem scan_snoc (follow : Option (List Char)) (xs : List Char) (c : Char) :
    scan follow (xs ++ [c]) = step follow (scan follow xs) c :=
  scanFrom_snoc follow init xs c

theorem scan_line (follow : Option (List Char)) (input : List Char) :
    (scan follow input).line = input.count '\n' := by
  induction input using List.reverseRecOn with
  | nil => rfl
  | append_singleton xs c ih =>
    rw [scan_snoc, step_line, ih, List.count_append]
    by_cases hc : c = '\n'
    · subst hc; simp
    · rw [if_neg hc, List.count_singleton, if_neg (fun h => hc (by simpa using h))]
      rfl

theorem scan_col (follow : Option (List Char)) (input : List Char) :
    (scan follow input).col = (input.reverse.takeWhile (fun ch => ch ≠ '\n')).length := by
  induction input using List.reverseRecOn with
  | nil => rfl
  | append_singleton xs c ih =>
    rw [scan_snoc, step_col, ih, List.reverse_append]
    by_cases hc : c = '\n'
    · subst hc; simp
    · rw [if_neg hc]
      simp [List.takeWhile, hc]


/-! ## Follow mode while the filter is never armed -/

/-- While the filter is inactive and the step is not a call of the target at
depth 0, the filter stays inactive and the step prints no report. -/
theorem step_unarmed (target : List Char) (s : State) (c : Char)
    (hfo : s.follow_on = -1)
    (hn : ¬ (s.state = STATE_IDENTIFIER ∧ c = '(' ∧ cstr s.identifier = target ∧
      cstr s.identifier ∉ keyword ∧ s.depth = 0)) :
    (step (some target) s c).follow_on = -1 ∧
    ∀ o ∈ (step (some target) s c).out, o.isCall = true → o ∈ s.out := by
  have hcf : (check_follow (some target) s (cstr s.identifier)).follow_on = -1 ∨
      (s.depth = 0 ∧ cstr s.identifier = target) := by
    unfold check_follow
    simp only []
    by_cases h1 : s.follow_on = -1 ∧ s.depth = 0 ∧ cstr s.identifier = target
    · exact Or.inr h1.2
    · rw [if_neg h1]
      left
      split
      · rfl
      · exact hfo
  obtain ⟨h1, h2⟩ := step_out_follow (some target) s c
  by_cases hc : s.state = STATE_IDENTIFIER ∧ c = '(' ∧ cstr s.identifier ∉ keyword
  · have hfo2 : (check_follow (some target) s (cstr s.identifier)).follow_on = -1 := by
      rcases hcf with h | h
      · exact h
      · exact absurd ⟨hc.1, hc.2.1, h.2, hc.2.2, h.1⟩ hn
    have n1 : ¬ (s.state = STATE_IDENTIFIER ∧ c = '(' ∧ cstr s.identifier ∉ keyword ∧
        (some target = none ∨
          ((check_follow (some target) s (cstr s.identifier)).follow_on ≠ -1 ∧
          (check_follow (some target) s (cstr s.identifier)).follow_on ≠ s.depth))) := by
      rintro ⟨_, _, _, h | h⟩
      · cases h
      · exact h.1 hfo2
    rw [if_neg n1, List.append_nil] at h1
    rw [if_pos hc] at h2
    refine ⟨h2.trans hfo2, fun o ho hcall => ?_⟩
    rw [h1] at ho
    rcases List.mem_append.1 ho with hm | hm
    · exact hm
    · split at hm
      · rw [List.mem_singleton.1 hm] at hcall; cases hcall
      · cases hm
  · have n1 : ¬ (s.state = STATE_IDENTIFIER ∧ c = '(' ∧ cstr s.identifier ∉ keyword ∧
        (some target = none ∨
          ((check_follow (some target) s (cstr s.identifier)).follow_on ≠ -1 ∧
          (check_follow (some target) s (cstr s.identifier)).follow_on ≠ s.depth))) :=
      fun h => hc ⟨h.1, h.2.1, h.2.2.1⟩
    rw [if_neg n1, List.append_nil] at h1
    rw [if_neg hc] at h2
    refine ⟨h2.trans hfo, fun o ho hcall => ?_⟩
    rw [h1] at ho
    rcases List.mem_append.1 ho with hm | hm
    · exact hm
    · split at hm
      · rw [List.mem_singleton.1 hm] at hcall; cases hcall
      · cases hm

theorem scanFrom_unarmed (target : List Char) (s : State) (input : List Char)
    (hfo : s.follow_on = -1) (hn : calledAtTop target s input = false) :
    (scanFrom (some target) s input).follow_on = -1 ∧
    ∀ o ∈ (scanFrom (some target) s input).out, o.isCall = true → o ∈ s.out := by
  induction input generalizing s with
  | nil => exact ⟨hfo, fun o ho _ => ho⟩
  | cons c cs ih =>
    unfold calledAtTop at hn
    rw [Bool.or_eq_false_iff] at hn
    obtain ⟨hn1, hn2⟩ := hn
    have hn1' : ¬ (s.state = STATE_IDENTIFIER ∧ c = '(' ∧ cstr s.identifier = target ∧
        cstr s.identifier ∉ keyword ∧ s.depth = 0) := by
      intro h
      simp [h.1, h.2.1, h.2.2.1, h.2.2.2.1, h.2.2.2.2] at hn1
      exact h.2.2.2.1 (by rw [h.2.2.1]; exact hn1)
    obtain ⟨h1, h2⟩ := step_unarmed target s c hfo hn1'
    obtain ⟨h3, h4⟩ := ih (step (some target) s c) h1 hn2
    rw [scanFrom_cons]
    exact ⟨h3, fun o ho hcall => h2 o (h4 o ho hcall) hcall⟩


/-! ## Inside a comment -/

theorem hashCheck_of_not (s : State) (c : Char) (h : ¬ (s.col = 0 ∧ c = '#')) :
    hashCheck s c = s := by
  unfold hashCheck
  rw [if_neg h]

theorem advance_state (s : State) (c : Char) (h : s.state ≠ STATE_SKIP_EOL) :
    (advance s c).state = s.state := by
  unfold advance
  split
  · simp only [if_neg h]
  · rfl

/-- A step inside a comment, when the character is not a `#` in column 0:
nothing is printed, and the comment is left only on `/` after `*`. -/
theorem step_in_comment (follow : Option (List Char)) (s : State) (c : Char)
    (hs : s.state = STATE_COMMENT_END ∨ s.state = STATE_COMMENT_END_FIN)
    (hc : ¬ (s.col = 0 ∧ c = '#')) :
    (step follow s c).out = s.out ∧
    (step follow s c).state =
      (if s.state = STATE_COMMENT_END then
        (if c = '*' then STATE_COMMENT_END_FIN else STATE_COMMENT_END)
       else (if c = '/' then STATE_ANY else STATE_COMMENT_END)) := by
  refine ⟨?_, ?_⟩
  · have n1 : ¬ (s.last_state = STATE_IDENTIFIER ∧ s.state = STATE_ANY ∧ c = '(' ∧
        is_keyword s.identifier_no = false) := by
      rintro ⟨_, h, _⟩
      rcases hs with h' | h' <;> rw [h] at h' <;> cases h'
    have n2 : ¬ (s.state = STATE_IDENTIFIER ∧ c = '(' ∧ cstr s.identifier ∉ keyword ∧
        (follow = none ∨ ((check_follow follow s (cstr s.identifier)).follow_on ≠ -1 ∧
          (check_follow follow s (cstr s.identifier)).follow_on ≠ s.depth))) := by
      rintro ⟨h, _⟩
      rcases hs with h' | h' <;> rw [h] at h' <;> cases h'
    rw [(step_out_follow follow s c).1, if_neg n1, if_neg n2]
    simp
  · obtain ⟨s2, hs2⟩ : ∃ s2 : State, s2 =
        { lookahead s c with last_state := (lookahead s c).state } := ⟨_, rfl⟩
    have hstep : step follow s c = advance (transition follow s2 c) c := by
      rw [hs2]
      unfold step
      rw [hashCheck_of_not s c hc]
    have e1 : s2.state = s.state := by rw [hs2, lookahead_eq]
    rw [hstep]
    rcases hs with h | h
    · have ht : (transition follow s2 c).state =
          if c = '*' then STATE_COMMENT_END_FIN else STATE_COMMENT_END := by
        unfold transition
        rw [e1, h]
        simp only []
        split
        · rfl
        · exact e1.trans h
      rw [advance_state _ _ (by rw [ht]; split <;> decide), ht, h, if_pos rfl]
    · have ht : (transition follow s2 c).state =
          if c = '/' then STATE_ANY else STATE_COMMENT_END := by
        unfold transition
        rw [e1, h]
        simp only []
        split <;> rfl
      rw [advance_state _ _ (by rw [ht]; split <;> decide), ht, h,
        if_neg (show ¬ (STATE_COMMENT_END_FIN = STATE_COMMENT_END) by decide)]

/-- The state inside the comment `/*` + `T`, for a text `T` without `*/` and
without a `#` after a newline. -/
theorem scan_comment_body (follow : Option (List Char)) (T : List Char)
    (h1 : ¬ ['*', '/'] <:+: T) (h2 : ¬ ['\n', '#'] <:+: T) :
    (scan follow ('/' :: '*' :: T)).out = [] ∧
    ((scan follow ('/' :: '*' :: T)).state = STATE_COMMENT_END ∨
      (scan follow ('/' :: '*' :: T)).state = STATE_COMMENT_END_FIN) ∧
    ((scan follow ('/' :: '*' :: T)).state = STATE_COMMENT_END_FIN → ∃ T', T = T' ++ ['*']) ∧
    ((scan follow ('/' :: '*' :: T)).col = 0 → ∃ T', T = T' ++ ['\n']) := by
  induction T using List.reverseRecOn with
  | nil =>
    have hst : (scan follow ['/', '*']).state = STATE_COMMENT_END := rfl
    have hcol : (scan follow ['/', '*']).col = 2 := rfl
    refine ⟨rfl, Or.inl hst, fun h => ?_, fun h => ?_⟩
    · rw [hst] at h; cases h
    · rw [hcol] at h; cases h
  | append_singleton T c ih =>
    have h1' : ¬ ['*', '/'] <:+: T := fun h => h1 (h.trans (List.infix_append' [] T [c]))
    have h2' : ¬ ['\n', '#'] <:+: T := fun h => h2 (h.trans (List.infix_append' [] T [c]))
    obtain ⟨i1, i2, i3, i4⟩ := ih h1' h2'
    have e : '/' :: '*' :: (T ++ [c]) = ('/' :: '*' :: T) ++ [c] := rfl
    have hc : ¬ ((scan follow ('/' :: '*' :: T)).col = 0 ∧ c = '#') := by
      rintro ⟨hcol, rfl⟩
      obtain ⟨T', rfl⟩ := i4 hcol
      exact h2 ⟨T', [], by simp⟩
    obtain ⟨o1, o2⟩ := step_in_comment follow _ c i2 hc
    rw [e, scan_snoc, o1, o2, step_col]
    refine ⟨i1, ?_, ?_, ?_⟩
    · rcases i2 with h | h
      · rw [h, if_pos rfl]
        split
        · exact Or.inr rfl
        · exact Or.inl rfl
      · rw [h, if_neg (show ¬ (STATE_COMMENT_END_FIN = STATE_COMMENT_END) by decide)]
        split
        · rename_i hsl
          obtain ⟨T', rfl⟩ := i3 h
          exact absurd ⟨T', [], by simp [hsl]⟩ h1
        · exact Or.inl rfl
    · intro hfin
      rcases i2 with h | h
      · rw [h, if_pos rfl] at hfin
        split at hfin
        · rename_i hst
          exact ⟨T, by rw [hst]⟩
        · cases hfin
      · rw [h, if_neg (show ¬ (STATE_COMMENT_END_FIN = STATE_COMMENT_END) by decide)] at hfin
        split at hfin <;> cases hfin
    · intro hcol
      split at hcol
      · rename_i hnl
        exact ⟨T, by rw [hnl]⟩
      · cases hcol


/-! ## Directive lines -/

theorem finalize_last_state (follow : Option (List Char)) (s : State) (c : Char) :
    (finalize follow s c).last_state = s.last_state := by
  unfold finalize
  simp only []
  rw [report_eq, find_id_eq]

theorem transition_last_state (follow : Option (List Char)) (s : State) (c : Char) :
    (transition follow s c).last_state = s.last_state := by
  unfold transition
  split <;> (repeat' split) <;> first | rfl | exact finalize_last_state follow s c

theorem step_last_state (follow : Option (List Char)) (s : State) (c : Char) :
    (step follow s c).last_state = (hashCheck s c).state := by
  have h : ∀ t : State, (advance t c).last_state = t.last_state := fun t => by rw [advance_eq]
  unfold step
  simp only []
  rw [h, transition_last_state]
  show (lookahead (hashCheck s c) c).state = _
  rw [lookahead_eq]

/-- A step outside the normal state, when the character is not a `#` in
column 0: the lookahead check does nothing. -/
theorem step_of_not_any (follow : Option (List Char)) (s : State) (c : Char)
    (hs : s.state ≠ STATE_ANY) (hc : ¬ (s.col = 0 ∧ c = '#')) :
    step follow s c = advance (transition follow { s with last_state := s.state } c) c := by
  unfold step
  simp only []
  rw [hashCheck_of_not s c hc, lookahead_of_state_ne s c hs]

/-- The step on a `#` in column 0, in any state. -/
theorem step_hash (follow : Option (List Char)) (s : State) (hc : s.col = 0) :
    step follow s '#' =
      { s with state := STATE_SKIP_EOL, last_state := STATE_SKIP_EOL, col := 1 } := by
  have hh : hashCheck s '#' = { s with state := STATE_SKIP_EOL } := by
    unfold hashCheck
    rw [if_pos ⟨hc, rfl⟩]
  unfold step
  simp only []
  rw [hh, lookahead_of_state_ne _ '#' (by simp)]
  unfold transition advance
  simp [hc]

/-- A step inside a directive line, on a character other than newline. -/
theorem step_skip (follow : Option (List Char)) (s : State) (c : Char)
    (hs : s.state = STATE_SKIP_EOL) (hl : s.last_state = STATE_SKIP_EOL) (hc : c ≠ '\n') :
    step follow s c = { s with col := s.col + 1 } := by
  have hh : hashCheck s c = s := by
    unfold hashCheck
    split
    · rw [← hs]
    · rfl
  unfold step
  simp only []
  rw [hh, lookahead_of_state_ne s c (by rw [hs]; decide)]
  unfold transition advance
  simp only [hs, hc, if_false]
  rw [← hl]

/-- The step on the newline that ends a directive line. -/
theorem step_skip_newline (follow : Option (List Char)) (s : State)
    (hs : s.state = STATE_SKIP_EOL) (hl : s.last_state = STATE_SKIP_EOL) :
    step follow s '\n' = { s with state := STATE_ANY, line := s.line + 1, col := 0 } := by
  have hh : hashCheck s '\n' = s := hashCheck_of_ne s '\n' (by decide)
  unfold step
  simp only []
  rw [hh, lookahead_of_state_ne s '\n' (by rw [hs]; decide)]
  unfold transition advance
  simp only [hs, if_true]
  rw [← hl]

theorem scanFrom_skip (follow : Option (List Char)) (L : List Char) (s : State)
    (hs : s.state = STATE_SKIP_EOL) (hl : s.last_state = STATE_SKIP_EOL) (hL : '\n' ∉ L) :
    scanFrom follow s L = { s with col := s.col + L.length } := by
  induction L generalizing s with
  | nil => rfl
  | cons c cs ih =>
    have hc : c ≠ '\n' := fun h => hL (by simp [h])
    have hcs : '\n' ∉ cs := fun h => hL (by simp [h])
    rw [scanFrom_cons, step_skip follow s c hs hl hc, ih { s with col := s.col + 1 } hs hl hcs]
    simp only [List.length_cons]
    congr 1
    omega

theorem transition_state_ne_skip (follow : Option (List Char)) (s : State) (c : Char)
    (hs : s.state ≠ STATE_SKIP_EOL) : (transition follow s c).state ≠ STATE_SKIP_EOL := by
  unfold transition
  split <;> (repeat' split) <;>
    first
    | (simp only []; decide)
    | (rw [finalize_def]; simp only []; decide)
    | exact hs

/-- Outside a directive line, a step enters `STATE_SKIP_EOL` only on a `#`
in column 0. -/
theorem step_state_ne_skip (follow : Option (List Char)) (s : State) (c : Char)
    (hs : s.state ≠ STATE_SKIP_EOL) (hc : ¬ (s.col = 0 ∧ c = '#')) :
    (step follow s c).state ≠ STATE_SKIP_EOL := by
  unfold step
  simp only []
  rw [hashCheck_of_not s c hc]
  have h1 : (transition follow
      { lookahead s c with last_state := (lookahead s c).state } c).state ≠ STATE_SKIP_EOL :=
    transition_state_ne_skip follow _ c (by
      show (lookahead s c).state ≠ STATE_SKIP_EOL
      rw [lookahead_eq]; exact hs)
  rw [advance_state _ _ h1]
  exact h1

/-! ## The values of the follow state -/

/-- The value of `follow_on` after `check_follow` with a target. -/
theorem check_follow_target (target w : List Char) (s : State) :
    (check_follow (some target) s w).follow_on =
      if s.follow_on = -1 ∧ s.depth = 0 ∧ w = target then s.depth
      else if s.follow_on = s.depth ∧ w ≠ target then -1 else s.follow_on := by
  unfold check_follow
  simp only []
  split
  · rfl
  · split <;> rfl

theorem check_follow_range (target w : List Char) (s : State)
    (h : s.follow_on = -1 ∨ s.follow_on = 0) :
    (check_follow (some target) s w).follow_on = -1 ∨
      (check_follow (some target) s w).follow_on = 0 := by
  rw [check_follow_target]
  split
  · rename_i hc; exact Or.inr hc.2.1
  · split
    · exact Or.inl rfl
    · exact h

theorem step_follow_range (target : List Char) (s : State) (c : Char)
    (h : s.follow_on = -1 ∨ s.follow_on = 0) :
    (step (some target) s c).follow_on = -1 ∨ (step (some target) s c).follow_on = 0 := by
  rw [(step_out_follow (some target) s c).2]
  split
  · exact check_follow_range target _ s h
  · exact h

theorem scanFrom_follow_range (target : List Char) (s : State) (input : List Char)
    (h : s.follow_on = -1 ∨ s.follow_on = 0) :
    (scanFrom (some target) s input).follow_on = -1 ∨
      (scanFrom (some target) s input).follow_on = 0 := by
  induction input generalizing s with
  | nil => exact h
  | cons c cs ih =>
    rw [scanFrom_cons]
    exact ih _ (step_follow_range target s c h)

/-- An ID in range has a text. -/
theorem id_as_str_isSome (s : State) (idn : Nat) (h : idn < kw_arr_len + s.identifiers.length) :
    (id_as_str s idn).isSome = true := by
  unfold id_as_str
  by_cases hk : is_keyword idn = true
  · rw [if_pos hk]
    have := (is_keyword_iff idn).1 hk
    rw [List.getElem?_eq_getElem (by exact this)]
    rfl
  · rw [if_neg hk]
    have hlt : idn - kw_arr_len < s.identifiers.length := by
      have := (is_keyword_iff idn).not.1 hk
      omega
    rw [List.getElem?_eq_getElem hlt]
    rfl

/-! ## Inside a literal -/

theorem quoteState_ne_any (q : Char) : quoteState q ≠ STATE_ANY := by
  unfold quoteState
  split <;> decide

theorem lookahead_of_ne_paren (s : State) (c : Char) (h : c ≠ '(') : lookahead s c = s := by
  unfold lookahead
  rw [if_neg (fun hh => h hh.2.2.1)]

/-- The step on the quote that opens a literal. -/
theorem step_open_quote (follow : Option (List Char)) (s : State) (q : Char)
    (hq : q = '\'' ∨ q = '\"') (hs : s.state = STATE_ANY) :
    step follow s q =
      { s with state := quoteState q, last_state := STATE_ANY, col := s.col + 1 } := by
  unfold step
  simp only []
  rcases hq with rfl | rfl
  · rw [hashCheck_of_ne s _ (by decide), lookahead_of_ne_paren s _ (by decide)]
    unfold transition advance
    simp [hs, quoteState, isAlpha]
  · rw [hashCheck_of_ne s _ (by decide), lookahead_of_ne_paren s _ (by decide)]
    unfold transition advance
    simp [hs, quoteState, isAlpha]

/-- A step inside a literal, on a character other than newline. -/
theorem step_in_quote (follow : Option (List Char)) (s : State) (q c : Char)
    (hq : q = '\'' ∨ q = '\"') (hs : s.state = quoteState q) (hcol : s.col ≠ 0)
    (hc : c ≠ '\n') :
    step follow s c =
      { s with
        last_state := quoteState q
        col := s.col + 1
        escape := if c = '\\' ∧ s.escape = 0 then 1 else 0
        state := if ¬ (c = '\\' ∧ s.escape = 0) ∧ c = q ∧ s.escape = 0 then STATE_ANY
                 else quoteState q } := by
  rw [step_of_not_any follow s c (by rw [hs]; exact quoteState_ne_any q) (fun h => hcol h.1)]
  rcases hq with rfl | rfl
  · have hs' : s.state = STATE_SQUOTE_END := hs
    unfold transition advance
    simp only [hs', hc, if_false]
    by_cases h1 : c = '\\' ∧ s.escape = 0
    · simp [h1, quoteState]
    · by_cases h2 : c = '\'' ∧ s.escape = 0
      · simp [h1, h2, quoteState]
      · simp [h1, h2, quoteState]
  · have hs' : s.state = STATE_DQUOTE_END := hs
    unfold transition advance
    simp only [hs', hc, if_false]
    by_cases h1 : c = '\\' ∧ s.escape = 0
    · simp [h1, quoteState]
    · by_cases h2 : c = '\"' ∧ s.escape = 0
      · simp [h1, h2, quoteState]
      · simp [h1, h2, quoteState]

theorem step_quote_backslash (follow : Option (List Char)) (s : State) (q : Char)
    (hq : q = '\'' ∨ q = '\"') (hs : s.state = quoteState q) (hcol : s.col ≠ 0)
    (he : s.escape = 0) :
    step follow s '\\' = { s with last_state := quoteState q, col := s.col + 1, escape := 1 } := by
  rw [step_in_quote follow s q '\\' hq hs hcol (by decide)]
  simp [he, hs]

theorem step_quote_escaped (follow : Option (List Char)) (s : State) (q c : Char)
    (hq : q = '\'' ∨ q = '\"') (hs : s.state = quoteState q) (hcol : s.col ≠ 0)
    (he : s.escape ≠ 0) (hc : c ≠ '\n') :
    step follow s c = { s with last_state := quoteState q, col := s.col + 1, escape := 0 } := by
  rw [step_in_quote follow s q c hq hs hcol hc]
  simp [he, hs]

theorem step_quote_other (follow : Option (List Char)) (s : State) (q c : Char)
    (hq : q = '\'' ∨ q = '\"') (hs : s.state = quoteState q) (hcol : s.col ≠ 0)
    (h1 : c ≠ '\\') (h2 : c ≠ q) (hc : c ≠ '\n') :
    step follow s c = { s with last_state := quoteState q, col := s.col + 1, escape := 0 } := by
  rw [step_in_quote follow s q c hq hs hcol hc]
  simp [h1, h2, hs]

/-- The step on the unescaped quote that closes a literal. -/
theorem step_quote_close (follow : Option (List Char)) (s : State) (q : Char)
    (hq : q = '\'' ∨ q = '\"') (hs : s.state = quoteState q) (hcol : s.col ≠ 0)
    (he : s.escape = 0) :
    step follow s q =
      { s with last_state := quoteState q, col := s.col + 1, state := STATE_ANY } := by
  have hb : q ≠ '\\' := by rcases hq with rfl | rfl <;> decide
  have hn : q ≠ '\n' := by rcases hq with rfl | rfl <;> decide
  rw [step_in_quote follow s q q hq hs hcol hn]
  simp [he, hb]

/-- Scanning the inside of a literal: only `last_state` and the column
change, and after every part of the body read so far the scanner is still
inside the literal. -/
theorem scanFrom_literalBody (follow : Option (List Char)) (q : Char)
    (hq : q = '\'' ∨ q = '\"') :
    ∀ (body : List Char) (s : State), s.state = quoteState q → s.escape = 0 → s.col ≠ 0 →
      literalBody q body = true →
      (∃ ls, scanFrom follow s body =
        { s with last_state := ls, col := s.col + body.length }) ∧
      ∀ p, p <+: body → (scanFrom follow s p).state = quoteState q
  | [], s, hs, _, _, _ => by
    refine ⟨⟨s.last_state, rfl⟩, fun p hp => ?_⟩
    rw [List.prefix_nil.1 hp]
    exact hs
  | [c], s, hs, he, hcol, hb => by
    simp only [literalBody, Bool.and_eq_true, decide_eq_true_eq] at hb
    obtain ⟨⟨h1, h2⟩, h3⟩ := hb
    have hstep := step_quote_other follow s q c hq hs hcol h1 h2 h3
    refine ⟨⟨quoteState q, ?_⟩, fun p hp => ?_⟩
    · show step follow s c = _
      rw [hstep]
      simp [he]
    · rcases List.prefix_cons_iff.1 hp with rfl | ⟨t, rfl, ht⟩
      · exact hs
      · rw [List.prefix_nil.1 ht]
        show (step follow s c).state = _
        rw [hstep]
        exact hs
  | c :: x :: rest, s, hs, he, hcol, hb => by
    unfold literalBody at hb
    by_cases hc : c = '\\'
    · rw [if_pos hc] at hb
      simp only [Bool.and_eq_true, decide_eq_true_eq] at hb
      obtain ⟨hx, hrest⟩ := hb
      subst hc
      have hs1 := step_quote_backslash follow s q hq hs hcol he
      have hs2 := step_quote_escaped follow (step follow s '\\') q x hq
        (by rw [hs1]; exact hs) (by rw [hs1]; exact Nat.succ_ne_zero _)
        (by rw [hs1]; exact Nat.one_ne_zero) hx
      obtain ⟨⟨ls, ih1⟩, ih2⟩ := scanFrom_literalBody follow q hq rest
        (step follow (step follow s '\\') x)
        (by rw [hs2, hs1]; exact hs) (by rw [hs2]) (by rw [hs2]; exact Nat.succ_ne_zero _) hrest
      refine ⟨⟨ls, ?_⟩, fun p hp => ?_⟩
      · show scanFrom follow (step follow (step follow s '\\') x) rest = _
        rw [ih1, hs2, hs1]
        simp only [List.length_cons]
        simp [he, Nat.add_assoc]
        try omega
      · rcases List.prefix_cons_iff.1 hp with rfl | ⟨t, rfl, ht⟩
        · exact hs
        · rcases List.prefix_cons_iff.1 ht with rfl | ⟨t2, rfl, ht2⟩
          · show (step follow s '\\').state = _
            rw [hs1]
            exact hs
          · exact ih2 t2 ht2
    · rw [if_neg hc] at hb
      simp only [Bool.and_eq_true, decide_eq_true_eq] at hb
      obtain ⟨⟨h2, h3⟩, hrest⟩ := hb
      have hs1 := step_quote_other follow s q c hq hs hcol hc h2 h3
      obtain ⟨⟨ls, ih1⟩, ih2⟩ := scanFrom_literalBody follow q hq (x :: rest) (step follow s c)
        (by rw [hs1]; exact hs) (by rw [hs1]) (by rw [hs1]; exact Nat.succ_ne_zero _) hrest
      refine ⟨⟨ls, ?_⟩, fun p hp => ?_⟩
      · show scanFrom follow (step follow s c) (x :: rest) = _
        rw [ih1, hs1]
        simp only [List.length_cons]
        simp [he, Nat.add_assoc]
        try omega
      · rcases List.prefix_cons_iff.1 hp with rfl | ⟨t, rfl, ht⟩
        · exact hs
        · exact ih2 t ht

/-! ## Counting the lines of the output -/

theorem hashCheck_state (s : State) (c : Char) :
    (hashCheck s c).state = s.state ∨
      ((hashCheck s c).state = STATE_SKIP_EOL ∧ c = '#') := by
  unfold hashCheck
  split
  · rename_i h; exact Or.inr ⟨rfl, h.2⟩
  · exact Or.inl rfl

/-- A character that continues the identifier keeps the identifier state. -/
theorem step_state_continue (follow : Option (List Char)) (s : State) (c : Char)
    (hs : (hashCheck s c).state = STATE_IDENTIFIER) (hc : continuesIdentifier c = true) :
    (step follow s c).state = STATE_IDENTIFIER := by
  unfold step
  simp only []
  have h1 : (lookahead (hashCheck s c) c).state = STATE_IDENTIFIER := by
    rw [lookahead_eq]; exact hs
  have h2 : (transition follow
      { lookahead (hashCheck s c) c with last_state := (lookahead (hashCheck s c) c).state }
      c).state = STATE_IDENTIFIER := by
    unfold transition
    simp only [h1]
    rw [if_neg (by rw [hc]; decide)]
  rw [advance_state _ _ (by rw [h2]; decide)]
  exact h2

theorem finalizes_iff (s : State) (c : Char) :
    finalizes s c = true ↔
      (hashCheck s c).state = STATE_IDENTIFIER ∧ continuesIdentifier c = false := by
  unfold finalizes
  simp

/-- A step prints at most one report, and only when it ends an identifier. -/
theorem step_calls (follow : Option (List Char)) (s : State) (c : Char) :
    ∃ new, (step follow s c).out = s.out ++ new ∧
      new.countP OutLine.isCall ≤ (if finalizes s c = true then 1 else 0) ∧
      (new.countP OutLine.isCall = 1 → c = '(') := by
  rw [(step_out_follow follow s c).1, List.append_assoc]
  refine ⟨_, rfl, ?_, ?_⟩
  · rw [List.countP_append]
    have hA : List.countP OutLine.isCall
        (if s.last_state = STATE_IDENTIFIER ∧ s.state = STATE_ANY ∧ c = '(' ∧
            is_keyword s.identifier_no = false
         then [OutLine.func ((id_as_str s s.identifier_no).getD [])] else []) = 0 := by
      split <;> rfl
    rw [hA, Nat.zero_add]
    split
    · rename_i hB
      have hf : finalizes s c = true := by
        rw [finalizes_iff, hB.2.1, hashCheck_of_ne s '(' (by decide)]
        exact ⟨hB.1, continuesIdentifier_paren⟩
      rw [if_pos hf]
      rfl
    · exact Nat.zero_le _
  · intro h
    rw [List.countP_append] at h
    have hA : List.countP OutLine.isCall
        (if s.last_state = STATE_IDENTIFIER ∧ s.state = STATE_ANY ∧ c = '(' ∧
            is_keyword s.identifier_no = false
         then [OutLine.func ((id_as_str s s.identifier_no).getD [])] else []) = 0 := by
      split <;> rfl
    rw [hA, Nat.zero_add] at h
    split at h
    · rename_i hB; exact hB.2.1
    · cases h

/-- A step prints at most one lookahead line, and only when the step before
ended an identifier. -/
theorem step_funcs (follow : Option (List Char)) (s : State) (c : Char) :
    (step follow s c).out.countP (fun o => !o.isCall) + pendingLookahead (step follow s c) ≤
      s.out.countP (fun o => !o.isCall) + pendingLookahead s +
        (if finalizes s c = true then 1 else 0) := by
  rw [(step_out_follow follow s c).1, List.countP_append, List.countP_append]
  have hB : List.countP (fun o => !o.isCall)
      (if s.state = STATE_IDENTIFIER ∧ c = '(' ∧ cstr s.identifier ∉ keyword ∧
          (follow = none ∨ ((check_follow follow s (cstr s.identifier)).follow_on ≠ -1 ∧
            (check_follow follow s (cstr s.identifier)).follow_on ≠ s.depth))
       then [OutLine.call s.line s.depth (cstr s.identifier)] else []) = 0 := by
    split <;> rfl
  rw [hB, Nat.add_zero]
  by_cases hA : s.last_state = STATE_IDENTIFIER ∧ s.state = STATE_ANY ∧ c = '(' ∧
      is_keyword s.identifier_no = false
  · rw [if_pos hA]
    have hp : pendingLookahead s = 1 := by
      unfold pendingLookahead
      rw [if_pos ⟨hA.1, hA.2.1⟩]
    have hl : (step follow s c).last_state = STATE_ANY := by
      rw [step_last_state, hA.2.2.1, hashCheck_of_ne s '(' (by decide)]
      exact hA.2.1
    have hp' : pendingLookahead (step follow s c) = 0 := by
      unfold pendingLookahead
      rw [if_neg (fun h => by rw [hl] at h; exact absurd h.1 (by decide))]
    rw [hp, hp']
    show _ + 1 + 0 ≤ _
    omega
  · rw [if_neg hA]
    show _ + 0 + _ ≤ _
    by_cases hp' : (step follow s c).last_state = STATE_IDENTIFIER ∧
        (step follow s c).state = STATE_ANY
    · have hh : (hashCheck s c).state = STATE_IDENTIFIER := by
        rw [← step_last_state follow s c]; exact hp'.1
      have hc : continuesIdentifier c = false := by
        cases hcc : continuesIdentifier c with
        | false => rfl
        | true =>
          have := step_state_continue follow s c hh hcc
          rw [hp'.2] at this
          cases this
      have hf : finalizes s c = true := (finalizes_iff s c).2 ⟨hh, hc⟩
      rw [if_pos hf]
      unfold pendingLookahead
      rw [if_pos hp']
      omega
    · have : pendingLookahead (step follow s c) = 0 := by
        unfold pendingLookahead
        rw [if_neg hp']
      rw [this]
      omega

theorem scanFrom_calls (follow : Option (List Char)) (s : State) (input : List Char) :
    (scanFrom follow s input).out.countP OutLine.isCall ≤
      s.out.countP OutLine.isCall + finalizedCount follow s input := by
  induction input generalizing s with
  | nil => exact Nat.le_refl _
  | cons c cs ih =>
    obtain ⟨new, h1, h2, _⟩ := step_calls follow s c
    have h3 := ih (step follow s c)
    rw [h1, List.countP_append] at h3
    rw [scanFrom_cons]
    unfold finalizedCount
    omega

theorem scanFrom_funcs (follow : Option (List Char)) (s : State) (input : List Char) :
    (scanFrom follow s input).out.countP (fun o => !o.isCall) +
        pendingLookahead (scanFrom follow s input) ≤
      s.out.countP (fun o => !o.isCall) + pendingLookahead s +
        finalizedCount follow s input := by
  induction input generalizing s with
  | nil => exact Nat.le_refl _
  | cons c cs ih =>
    have h1 := step_funcs follow s c
    have h3 := ih (step follow s c)
    rw [scanFrom_cons]
    unfold finalizedCount
    omega

/-! ## The loop with its exit test and limits -/

theorem charsRead_of_no_EOF (input : List Char) (h : ∀ c ∈ input, readsEOF c = false) :
    charsRead input = input := by
  unfold charsRead
  rw [List.takeWhile_eq_self_iff]
  intro c hc
  rw [h c hc]
  rfl

/-- The loop ends in the state that the loop body reaches on the characters
read. -/
theorem loopFrom_eq_some (follow : Option (List Char)) (input : List Char) (s t : State)
    (h : loopFrom follow s input = some t) : t = scanFrom follow s (charsRead input) := by
  induction input generalizing s with
  | nil =>
    simp only [loopFrom, Option.some.injEq] at h
    rw [← h]
    rfl
  | cons c cs ih =>
    unfold loopFrom at h
    by_cases hc : readsEOF c = true
    · rw [if_pos hc] at h
      have e : charsRead (c :: cs) = [] := by
        unfold charsRead
        simp [List.takeWhile, hc]
      rw [e, ← Option.some.inj h]
      rfl
    · rw [if_neg hc] at h
      unfold stepChecked at h
      by_cases hd : stepDefined s c = true
      · rw [if_pos hd] at h
        have e : charsRead (c :: cs) = c :: charsRead cs := by
          unfold charsRead
          simp [List.takeWhile, hc]
        rw [e, scanFrom_cons]
        exact ih _ h
      · rw [if_neg hd] at h
        cases h

/-- A run that reads no `EOF` character and stays within the limits ends in
the state that the loop body reaches on the whole input. -/
theorem loopFrom_of_no_EOF (follow : Option (List Char)) (input : List Char) (s : State)
    (hE : ∀ c ∈ input, readsEOF c = false) (hd : (loopFrom follow s input).isSome = true) :
    loopFrom follow s input = some (scanFrom follow s input) := by
  cases h : loopFrom follow s input with
  | none => rw [h] at hd; cases hd
  | some t =>
    rw [loopFrom_eq_some follow input s t h, charsRead_of_no_EOF input hE]

/-- Scanning a literal `q` + body + `q` with the loop body, from a state
that is normal with the escape flag clear: only `last_state` and the column
change, and after no proper prefix with more than one character is the
scanner in the normal state. -/
theorem scanFrom_literal (follow : Option (List Char)) (s : State) (q : Char)
    (body : List Char) (hq : q = '\'' ∨ q = '\"') (hs : s.state = STATE_ANY)
    (he : s.escape = 0) (hb : literalBody q body = true) :
    scanFrom follow s (q :: body ++ [q]) =
      { s with last_state := quoteState q, col := s.col + (body.length + 2) } ∧
    (scanFrom follow s (q :: body ++ [q])).state = STATE_ANY ∧
    (scanFrom follow s (q :: body ++ [q])).escape = 0 ∧
    (scanFrom follow s (q :: body ++ [q])).out = s.out ∧
    (scanFrom follow s (q :: body ++ [q])).depth = s.depth ∧
    (scanFrom follow s (q :: body ++ [q])).identifiers = s.identifiers ∧
    (scanFrom follow s (q :: body ++ [q])).identifier_no = s.identifier_no ∧
    ∀ p, p <+: q :: body ++ [q] → 1 < p.length → p ≠ q :: body ++ [q] →
      (scanFrom follow s p).state ≠ STATE_ANY := by
  have h1 := step_open_quote follow s q hq hs
  obtain ⟨⟨ls, h2⟩, h3⟩ := scanFrom_literalBody follow q hq body (step follow s q)
    (by rw [h1]) (by rw [h1]; exact he) (by rw [h1]; exact Nat.succ_ne_zero _) hb
  have h4 := step_quote_close follow (scanFrom follow (step follow s q) body) q hq
    (by rw [h2, h1]) (by rw [h2, h1]; simp) (by rw [h2, h1]; exact he)
  have hfin : scanFrom follow s (q :: body ++ [q]) =
      { s with last_state := quoteState q, col := s.col + (body.length + 2) } := by
    have e : q :: body ++ [q] = (q :: body) ++ [q] := rfl
    rw [e, scanFrom_snoc, scanFrom_cons, h4, h2, h1]
    simp [hs, Nat.add_assoc]
    try omega
  refine ⟨hfin, ?_, ?_, ?_, ?_, ?_, ?_, ?_⟩
  · rw [hfin]; exact hs
  · rw [hfin]; exact he
  · rw [hfin]
  · rw [hfin]
  · rw [hfin]
  · rw [hfin]
  · intro p hp hlen hne
    rcases List.prefix_cons_iff.1 hp with rfl | ⟨t, rfl, ht⟩
    · simp at hlen
    · rcases List.prefix_concat_iff.1 ht with rfl | ht'
      · exact absurd rfl hne
      · rw [scanFrom_cons, h3 t ht']
        exact quoteState_ne_any q

/-- Scanning a directive line `#` + `L` + newline with the loop body, from a
state with column 0. -/
theorem scanFrom_hash_line (follow : Option (List Char)) (s : State) (L : List Char)
    (hc : s.col = 0) (hL : '\n' ∉ L) :
    scanFrom follow s ('#' :: L ++ ['\n']) =
      { s with state := STATE_ANY, last_state := STATE_SKIP_EOL,
               line := s.line + 1, col := 0 } ∧
    ∀ t : State, t.col ≠ 0 → t.state ≠ STATE_SKIP_EOL →
      (step follow t '#').state ≠ STATE_SKIP_EOL := by
  refine ⟨?_, fun t h1 h2 => step_state_ne_skip follow t '#' h2 (fun h => h1 h.1)⟩
  have e : '#' :: L ++ ['\n'] = ('#' :: L) ++ ['\n'] := rfl
  rw [e, scanFrom_snoc, scanFrom_cons, step_hash follow s hc,
    scanFrom_skip follow L _ rfl rfl hL, step_skip_newline follow _ rfl rfl]

/-! ## Plain text: names and brace depth -/

/-- Counterexample to C1 as stated.  After thirty letters `a` the scanner is
in the identifier state, within the limits so far, and the text is no
keyword; the step on `(` writes the terminating 0 to `identifier[30]`, past
the buffer of 30 bytes, so it has no defined result and no report with the
text of thirty letters is guaranteed. -/
theorem unrestricted_call_site_report_counterexample :
    loopFrom none init (List.replicate 30 'a') = some (scan none (List.replicate 30 'a')) ∧
    (scan none (List.replicate 30 'a')).state = STATE_IDENTIFIER ∧
    cstr (scan none (List.replicate 30 'a')).identifier ∉ keyword ∧
    (scan none (List.replicate 30 'a')).identifier.length = 30 ∧
    stepChecked none (scan none (List.replicate 30 'a')) '(' = none := by
  decide

/-- C1, amended: in unrestricted mode (no follow target), when the scanner is
in the identifier state, the accumulated text `w` (the buffer read as a C
string) is not a keyword, the buffer of 30 bytes holds at most 29 characters
and the column is below `INT_MAX`, and the next character is `(`, the step is
within the limits of the program and appends exactly one report, with the
current line number, the current depth and the text `w`, at the end of the
output and leaves the earlier output as it was.  Scanning
`int main() { foo(); bar(); }` prints exactly three reports: `main` at depth
0, `foo` at depth 1 and `bar` at depth 1, in that order, all with line 0. -/
theorem unrestricted_call_site_report (s : State) (hs : s.state = STATE_IDENTIFIER)
    (hw : cstr s.identifier ∉ keyword) (hlen : s.identifier.length < 30)
    (hcol : (s.col : Int) < INT_MAX) :
    stepChecked none s '(' = some (step none s '(') ∧
    (step none s '(').out = s.out ++ [OutLine.call s.line s.depth (cstr s.identifier)] ∧
    (scan none "int main() \x7b foo(); bar(); \x7d".toList).out =
      [OutLine.call 0 0 "main".toList, OutLine.call 0 1 "foo".toList,
        OutLine.call 0 1 "bar".toList] := by
  refine ⟨?_, ?_, ?_⟩
  · have hdef : stepDefined s '(' = true := by
      unfold stepDefined
      rw [hashCheck_of_ne s '(' (by decide)]
      simp only [hs]
      rw [if_neg (by decide)]
      simp [hlen, hcol]
    unfold stepChecked
    rw [if_pos hdef]
  · have h := (step_call_site none s hs hw).1
    rw [if_pos (Or.inl rfl)] at h
    exact h
  · decide

/-- Witness of C1, amended: after `int main() { foo`, inside the braces, the
step on `(` is within the limits and appends the report of `foo` at line 0
and depth 1. -/
theorem unrestricted_call_site_report_witness :
    (scan none "int main() \x7b foo".toList).state = STATE_IDENTIFIER ∧
    cstr (scan none "int main() \x7b foo".toList).identifier ∉ keyword ∧
    (scan none "int main() \x7b foo".toList).identifier.length < 30 ∧
    ((scan none "int main() \x7b foo".toList).col : Int) < INT_MAX ∧
    stepChecked none (scan none "int main() \x7b foo".toList) '(' =
      some (step none (scan none "int main() \x7b foo".toList) '(') ∧
    (step none (scan none "int main() \x7b foo".toList) '(').out =
      (scan none "int main() \x7b foo".toList).out ++ [OutLine.call 0 1 "foo".toList] :=
  ⟨by decide, by decide, by decide, by decide,
    (unrestricted_call_site_report (scan none "int main() \x7b foo".toList)
      (by decide) (by decide) (by decide) (by decide)).1,
    (unrestricted_call_site_report (scan none "int main() \x7b foo".toList)
      (by decide) (by decide) (by decide) (by decide)).2.1⟩

/-- C2: for every input and in both modes (any follow target or none), no
line of the output names a keyword: the identifier text of every output line
differs from each of the 35 texts of `keyword`. -/
theorem output_never_names_keyword (follow : Option (List Char)) (input : List Char) :
    keyword.length = 35 ∧
    ∀ o ∈ (scan follow input).out, ∀ k ∈ keyword, o.name ≠ k := by
  refine ⟨by decide, fun o ho k hk he => ?_⟩
  have := (scanFrom_ok follow init input init_ok.1 init_ok.2).2 o ho
  rw [he] at this
  exact this hk

/-- Witness of C2: scanning `if (x) foo();` prints the report of `foo`, whose
name differs from the keyword `if`. -/
theorem output_never_names_keyword_witness :
    OutLine.call 0 0 "foo".toList ∈ (scan none "if (x) foo();".toList).out ∧
    "if".toList ∈ keyword ∧
    (OutLine.call 0 0 "foo".toList).name ≠ "if".toList :=
  ⟨by decide, by decide,
    (output_never_names_keyword none "if (x) foo();".toList).2
      (OutLine.call 0 0 "foo".toList) (by decide) "if".toList (by decide)⟩

/-- Counterexample to C3 as stated.  The text `T` = newline, `#`, newline,
`foo(` contains no `*/`, yet scanning `/*` + `T` + `*/` reports `foo`: the
`#` in column 0 inside the comment skips its line and the scanner is back in
the normal state on the next line. -/
theorem comment_silent_counterexample :
    ¬ ['*', '/'] <:+: "\n#\nfoo(".toList ∧
    (scan none ('/' :: '*' :: "\n#\nfoo(".toList ++ ['*', '/'])).out =
      [OutLine.call 2 0 "foo".toList] := by
  decide

/-- C3, amended: text inside a comment is never reported, unless a `#` in
column 0 is inside the comment.  For every text `T` that contains no `*/` and
no `#` right after a newline (`T` may contain newlines and any other
characters), scanning `/*` + `T` + `*/` from the initial state in unrestricted
mode prints nothing.  Scanning `/* foo( */ bar();` reports only `bar`. -/
theorem comment_silent (T : List Char)
    (h1 : ¬ ['*', '/'] <:+: T) (h2 : ¬ ['\n', '#'] <:+: T) :
    (scan none ('/' :: '*' :: T ++ ['*', '/'])).out = [] ∧
    (scan none "/* foo( */ bar();".toList).out = [OutLine.call 0 0 "bar".toList] := by
  refine ⟨?_, by decide⟩
  obtain ⟨i1, i2, _, _⟩ := scan_comment_body none T h1 h2
  have e : '/' :: '*' :: T ++ ['*', '/'] = (('/' :: '*' :: T) ++ ['*']) ++ ['/'] := by simp
  obtain ⟨o1, o2⟩ := step_in_comment none (scan none ('/' :: '*' :: T)) '*' i2
    (fun h => absurd h.2 (by decide))
  have i2' : (step none (scan none ('/' :: '*' :: T)) '*').state = STATE_COMMENT_END ∨
      (step none (scan none ('/' :: '*' :: T)) '*').state = STATE_COMMENT_END_FIN := by
    rw [o2]
    rcases i2 with h | h
    · rw [h, if_pos rfl, if_pos rfl]; exact Or.inr rfl
    · rw [h, if_neg (show ¬ (STATE_COMMENT_END_FIN = STATE_COMMENT_END) by decide),
        if_neg (show ¬ ('*' = '/') by decide)]
      exact Or.inl rfl
  obtain ⟨p1, _⟩ := step_in_comment none _ '/' i2' (fun h => absurd h.2 (by decide))
  rw [e, scan_snoc, scan_snoc, p1, o1, i1]

/-- Witness of C3, amended: the comment `/* foo(` newline `bar( **/` prints
nothing. -/
theorem comment_silent_witness :
    ¬ ['*', '/'] <:+: " foo(\nbar( *".toList ∧ ¬ ['\n', '#'] <:+: " foo(\nbar( *".toList ∧
    (scan none ('/' :: '*' :: " foo(\nbar( *".toList ++ ['*', '/'])).out = [] :=
  ⟨by decide, by decide, (comment_silent " foo(\nbar( *".toList (by decide) (by decide)).1⟩

/-- C4, the code at the failing input `do{}`: the input has one `{` and one
`}` and no `/`, quote or `#`, and the final depth is -1, not 0: the `{` that
ends the identifier `do` is consumed by the identifier case and is not
counted.  The same happens in `void f(){do{g();}while(0);}`. -/
theorem depth_brace_after_identifier :
    "do\x7b\x7d".toList.count '{' = 1 ∧ "do\x7b\x7d".toList.count '}' = 1 ∧
    "do\x7b\x7d".toList.count '/' = 0 ∧ "do\x7b\x7d".toList.count '\'' = 0 ∧
    "do\x7b\x7d".toList.count '\"' = 0 ∧ "do\x7b\x7d".toList.count '#' = 0 ∧
    (scan none "do\x7b\x7d".toList).depth = -1 ∧
    (scan none "void f()\x7bdo\x7bg();\x7dwhile(0);\x7d".toList).depth = -1 := by
  decide

/-- Counterexample to C5 as stated.  With target `a`: at `a(` on depth 0 the
filter is active after its update and the depth equals the armed depth, yet
nothing is printed; at `x(` inside the braces of `a` the depth 1 differs from
the armed depth 0, yet `x` is reported. -/
theorem follow_rule_counterexample :
    ((scan (some "a".toList) "a".toList).state = STATE_IDENTIFIER ∧
      cstr (scan (some "a".toList) "a".toList).identifier ∉ keyword ∧
      (step (some "a".toList) (scan (some "a".toList) "a".toList) '(').follow_on ≠ -1 ∧
      (scan (some "a".toList) "a".toList).depth =
        (step (some "a".toList) (scan (some "a".toList) "a".toList) '(').follow_on ∧
      (step (some "a".toList) (scan (some "a".toList) "a".toList) '(').out =
        (scan (some "a".toList) "a".toList).out) ∧
    ((scan (some "a".toList) "a() \x7b x".toList).state = STATE_IDENTIFIER ∧
      cstr (scan (some "a".toList) "a() \x7b x".toList).identifier ∉ keyword ∧
      (scan (some "a".toList) "a() \x7b x".toList).depth ≠
        (step (some "a".toList) (scan (some "a".toList) "a() \x7b x".toList) '(').follow_on ∧
      (step (some "a".toList) (scan (some "a".toList) "a() \x7b x".toList) '(').out =
        (scan (some "a".toList) "a() \x7b x".toList).out ++ [OutLine.call 0 1 "x".toList]) := by
  decide

/-- C5, amended: with a target configured, a call site (an identifier that is
not a keyword, ended by `(`) seen at depth `d` is reported if and only if,
after the arm/disarm update of the filter for that call site, the filter is
active (`follow_on` is not -1) and `d` differs from the armed depth; when it
is not reported the output is unchanged. -/
theorem follow_rule (target : List Char) (s : State) (hs : s.state = STATE_IDENTIFIER)
    (hw : cstr s.identifier ∉ keyword) :
    ((step (some target) s '(').out =
        s.out ++ [OutLine.call s.line s.depth (cstr s.identifier)] ↔
      ((step (some target) s '(').follow_on ≠ -1 ∧
        (step (some target) s '(').follow_on ≠ s.depth)) ∧
    (¬ ((step (some target) s '(').follow_on ≠ -1 ∧
        (step (some target) s '(').follow_on ≠ s.depth) →
      (step (some target) s '(').out = s.out) := by
  obtain ⟨hout, hfo, _⟩ := step_call_site (some target) s hs hw
  rw [hout, hfo]
  by_cases h : (check_follow (some target) s (cstr s.identifier)).follow_on ≠ -1 ∧
      (check_follow (some target) s (cstr s.identifier)).follow_on ≠ s.depth
  · rw [if_pos (Or.inr h)]
    exact ⟨⟨fun _ => h, fun _ => rfl⟩, fun hn => absurd h hn⟩
  · have hc : ¬ (some target = none ∨
        ((check_follow (some target) s (cstr s.identifier)).follow_on ≠ -1 ∧
          (check_follow (some target) s (cstr s.identifier)).follow_on ≠ s.depth)) := by
      rintro (h1 | h2)
      · cases h1
      · exact h h2
    rw [if_neg hc]
    refine ⟨⟨fun he => ?_, fun hh => absurd hh h⟩, fun _ => by simp⟩
    simp at he

/-- Witness of C5, amended: with target `a`, after `a() { x` the filter is
armed at depth 0 and the scanner is at depth 1; `x` is reported. -/
theorem follow_rule_witness :
    (scan (some "a".toList) "a() \x7b x".toList).state = STATE_IDENTIFIER ∧
    cstr (scan (some "a".toList) "a() \x7b x".toList).identifier ∉ keyword ∧
    ((step (some "a".toList) (scan (some "a".toList) "a() \x7b x".toList) '(').out =
        (scan (some "a".toList) "a() \x7b x".toList).out ++
          [OutLine.call (scan (some "a".toList) "a() \x7b x".toList).line
            (scan (some "a".toList) "a() \x7b x".toList).depth
            (cstr (scan (some "a".toList) "a() \x7b x".toList).identifier)] ↔
      ((step (some "a".toList) (scan (some "a".toList) "a() \x7b x".toList) '(').follow_on ≠ -1 ∧
        (step (some "a".toList) (scan (some "a".toList) "a() \x7b x".toList) '(').follow_on ≠
          (scan (some "a".toList) "a() \x7b x".toList).depth)) :=
  ⟨by decide, by decide,
    (follow_rule "a".toList (scan (some "a".toList) "a() \x7b x".toList)
      (by decide) (by decide)).1⟩

/-- C7: interning is stable.  For every state of the symbol table and every
text `x`, a second `find_id(x)` returns the ID of the first call and changes
nothing; after any later calls `find_id(y)`, for the texts `y` of `ys`, the ID
of `x` is still the same, the identifier list has the earlier list as a
prefix, and every ID issued before still has its text. -/
theorem find_id_stable (s : State) (x : List Char) (ys : List (List Char)) :
    find_id (find_id s x).2 x = ((find_id s x).1, (find_id s x).2) ∧
    (find_id (internAll (find_id s x).2 ys) x).1 = (find_id s x).1 ∧
    (find_id s x).2.identifiers <+: (internAll (find_id s x).2 ys).identifiers ∧
    ∀ idn, idn < kw_arr_len + (find_id s x).2.identifiers.length →
      id_as_str (internAll (find_id s x).2 ys) idn = id_as_str (find_id s x).2 idn := by
  have hp := internAll_extends (find_id s x).2 ys
  refine ⟨find_id_idem s x, ?_, hp, fun idn h => id_as_str_of_extends _ _ idn hp h⟩
  rw [find_id_fst_of_extends _ _ x hp (find_id_mem s x), find_id_idem]

/-- Witness of C7: after `foo`, the calls for `bar`, `if` and `foo` leave the
text of ID 35 as it was. -/
theorem find_id_stable_witness :
    35 < kw_arr_len + (find_id init "foo".toList).2.identifiers.length ∧
    id_as_str (internAll (find_id init "foo".toList).2
        ["bar".toList, "if".toList, "foo".toList]) 35 =
      id_as_str (find_id init "foo".toList).2 35 :=
  ⟨by decide,
    (find_id_stable init "foo".toList ["bar".toList, "if".toList, "foo".toList]).2.2.2 35
      (by decide)⟩

/-- C8: interning is injective and `id_as_str` inverts it.  From the empty
table, after the calls for the texts `xs`, let `find_id(x)` return an ID; after
any further calls, for the texts `ys`, if `find_id(y)` returns that same ID
then `x = y`; and `id_as_str` of the ID of `x` is `x`, right after the call and
after the further calls. -/
theorem find_id_injective (xs ys : List (List Char)) (x y : List Char) :
    ((find_id (internAll init xs) x).1 =
        (find_id (internAll (find_id (internAll init xs) x).2 ys) y).1 → x = y) ∧
    id_as_str (find_id (internAll init xs) x).2 (find_id (internAll init xs) x).1 = some x ∧
    id_as_str (internAll (find_id (internAll init xs) x).2 ys)
      (find_id (internAll init xs) x).1 = some x := by
  have hx := id_as_str_find_id (internAll init xs) x
  have hlt := find_id_fst_lt (internAll init xs) x
  have hp := internAll_extends (find_id (internAll init xs) x).2 ys
  have hx2 := (id_as_str_of_extends _ _ _ hp hlt).trans hx
  refine ⟨fun h => ?_, hx, hx2⟩
  have hy := id_as_str_find_id (internAll (find_id (internAll init xs) x).2 ys) y
  have hp2 := hp.trans (find_id_extends (internAll (find_id (internAll init xs) x).2 ys) y)
  have hx3 := (id_as_str_of_extends _ _ _ hp2 hlt).trans hx
  rw [h, hy] at hx3
  exact (Option.some.inj hx3).symm

/-- Witness of C8: `foo` and `bar` get the IDs 35 and 36, so the premise of
injectivity holds only for equal texts; here it is used at `x = y = foo`. -/
theorem find_id_injective_witness :
    (find_id (internAll init ["foo".toList, "bar".toList]) "foo".toList).1 =
      (find_id (internAll (find_id (internAll init ["foo".toList, "bar".toList])
        "foo".toList).2 ["baz".toList]) "foo".toList).1 ∧
    "foo".toList = "foo".toList :=
  ⟨by decide,
    (find_id_injective ["foo".toList, "bar".toList] ["baz".toList] "foo".toList
      "foo".toList).1 (by decide)⟩

/-- C9: keyword IDs are the range below `kw_arr_len = 35` and user IDs start
there in first-seen order.  For every table reached from the empty one and
every text `x`: the ID of `x` is a keyword ID exactly when `x` is one of the
35 keywords; then `x` stands at that index of `keyword` and the state is not
changed; a text that is no keyword and not stored gets the ID 35 plus the
number of stored identifiers, and is appended to the list. -/
theorem keyword_id_range (xs : List (List Char)) (x : List Char) :
    kw_arr_len = 35 ∧
    (is_keyword (find_id (internAll init xs) x).1 = true ↔ x ∈ keyword) ∧
    (x ∈ keyword →
      keyword[(find_id (internAll init xs) x).1]? = some x ∧
      (find_id (internAll init xs) x).2 = internAll init xs) ∧
    (x ∉ keyword → x ∉ (internAll init xs).identifiers →
      (find_id (internAll init xs) x).1 = 35 + (internAll init xs).identifiers.length ∧
      (find_id (internAll init xs) x).2.identifiers =
        (internAll init xs).identifiers ++ [x]) := by
  refine ⟨kw_arr_len_eq, ?_, ?_, ?_⟩
  · rw [is_keyword_iff, find_id_fst]
    cases hk : firstMatch x keyword with
    | some i => simpa [firstMatch_mem hk] using firstMatch_lt hk
    | none => simpa using firstMatch_eq_none.1 hk
  · intro hk
    refine ⟨?_, find_id_snd_of_mem _ x (Or.inl hk)⟩
    rw [find_id_fst]
    cases hm : firstMatch x keyword with
    | some i => exact (firstMatch_some hm).1
    | none => exact absurd hk (firstMatch_eq_none.1 hm)
  · intro hk hi
    refine ⟨?_, find_id_identifiers_of_not_mem _ x hk hi⟩
    rw [find_id_fst, firstMatch_eq_none.2 hk, firstMatch_eq_none.2 hi, kw_arr_len_eq]
    rfl

/-- Witness of C9: `if` is a keyword, with ID 23; after `bar`, the new text
`foo` gets the ID 36. -/
theorem keyword_id_range_witness :
    ("if".toList ∈ keyword ∧
      keyword[(find_id (internAll init []) "if".toList).1]? = some "if".toList ∧
      (find_id (internAll init []) "if".toList).2 = internAll init []) ∧
    ("foo".toList ∉ keyword ∧ "foo".toList ∉ (internAll init ["bar".toList]).identifiers ∧
      (find_id (internAll init ["bar".toList]) "foo".toList).1 =
        35 + (internAll init ["bar".toList]).identifiers.length ∧
      (find_id (internAll init ["bar".toList]) "foo".toList).2.identifiers =
        (internAll init ["bar".toList]).identifiers ++ ["foo".toList]) :=
  ⟨⟨by decide, (keyword_id_range [] "if".toList).2.2.1 (by decide)⟩,
    ⟨by decide, by decide,
      (keyword_id_range ["bar".toList] "foo".toList).2.2.2 (by decide) (by decide)⟩⟩

/-- Counterexample to C10 as stated.  The input of the byte 0xFF and a newline
has one newline, yet the loop ends at the first byte, which compares equal to
`EOF` in `char c`, and the final line counter is 0. -/
theorem line_col_bookkeeping_counterexample :
    [Char.ofNat 255, '\n'].count '\n' = 1 ∧
    loopFrom none init [Char.ofNat 255, '\n'] = some init ∧
    init.line = 0 := by
  decide

/-- C10, amended: line and column bookkeeping does not depend on the lexical
state.  For every input without the byte 0xFF on which the scan stays within
the limits of the program (no write past the identifier buffer, no `int`
beyond its range), in both modes: the loop reads the whole input, the final
`line` is the number of newline characters of the input, the final `col` is
the number of characters after the last newline, and at every step of the
scan (the character `c` after the prefix `pre`) each report the step prints
is printed on a `(` and carries the number of newlines of `pre` as its line
number. -/
theorem line_col_bookkeeping (follow : Option (List Char)) (input : List Char)
    (hE : ∀ c ∈ input, readsEOF c = false)
    (hd : (loopFrom follow init input).isSome = true) :
    loopFrom follow init input = some (scan follow input) ∧
    (scan follow input).line = input.count '\n' ∧
    (scan follow input).col = (input.reverse.takeWhile (fun ch => ch ≠ '\n')).length ∧
    ∀ pre c suf, input = pre ++ c :: suf →
      ∃ new, (scan follow (pre ++ [c])).out = (scan follow pre).out ++ new ∧
        ∀ l d n, OutLine.call l d n ∈ new → c = '(' ∧ l = pre.count '\n' := by
  refine ⟨loopFrom_of_no_EOF follow input init hE hd, scan_line follow input,
    scan_col follow input, ?_⟩
  intro pre c suf _
  rw [scan_snoc, (step_out_follow follow (scan follow pre) c).1, List.append_assoc]
  refine ⟨_, rfl, ?_⟩
  intro l d n hmem
  rcases List.mem_append.1 hmem with hm | hm
  · split at hm
    · rw [List.mem_singleton] at hm; cases hm
    · cases hm
  · split at hm
    · rename_i hc
      rw [List.mem_singleton] at hm
      injection hm with h1 h2 h3
      exact ⟨hc.2.1, by rw [h1, scan_line]⟩
    · cases hm

/-- Witness of C10, amended: the input `a(`, two newlines, `b(` has no byte
0xFF and stays within the limits; the loop reads all of it, the final line is
2 and the column 2, and the report of `b` is printed with line number 2. -/
theorem line_col_bookkeeping_witness :
    (∀ c ∈ "a(\n\nb(".toList, readsEOF c = false) ∧
    (loopFrom none init "a(\n\nb(".toList).isSome = true ∧
    loopFrom none init "a(\n\nb(".toList = some (scan none "a(\n\nb(".toList) ∧
    (scan none "a(\n\nb(".toList).line = 2 ∧ (scan none "a(\n\nb(".toList).col = 2 ∧
    (scan none "a(\n\nb(".toList).out =
      [OutLine.call 0 0 "a".toList, OutLine.call 2 0 "b".toList] ∧
    ∃ new, (scan none ("a(\n\nb".toList ++ ['('])).out =
        (scan none "a(\n\nb".toList).out ++ new ∧
      ∀ l d n, OutLine.call l d n ∈ new → '(' = '(' ∧ l = "a(\n\nb".toList.count '\n' :=
  ⟨by decide, by decide,
    (line_col_bookkeeping none "a(\n\nb(".toList (by decide) (by decide)).1,
    by decide, by decide, by decide,
    (line_col_bookkeeping none "a(\n\nb(".toList (by decide) (by decide)).2.2.2
      "a(\n\nb".toList '(' [] (by decide)⟩

/-- Counterexample to C11 as stated.  The argument list `follow a b` has an
extra argument, yet it is no usage error: the scan runs, restricted to `a`,
reads the input and `main` returns 0. -/
theorem main_arguments_counterexample :
    (main ["canal".toList, "follow".toList, "a".toList, "b".toList] "x();".toList).status = 0 ∧
    (main ["canal".toList, "follow".toList, "a".toList, "b".toList] "x();".toList).consumed = 4 ∧
    (main ["canal".toList, "follow".toList, "a".toList, "b".toList] "x();".toList).final =
      some (scan (some "a".toList) "x();".toList) := by
  decide

/-- C11, amended: argument handling.  With no arguments the scan runs
unrestricted; with `follow NAME`, alone or followed by further arguments
(which are ignored), it runs restricted to `NAME`; `follow` with no name and
any first argument other than `follow` are usage errors: `main` returns 1,
writes the usage text to standard error and reads no input.  A scan that is
started reads the input up to the first character that compares equal to
`EOF`, or all of it, and ends with exit status 0. -/
theorem main_arguments (argv : List (List Char)) (input : List Char) :
    (argv.length ≤ 1 →
      main argv input =
        { status := 0, err := [], consumed := min ((charsRead input).length + 1) input.length,
          final := loopFrom none init input }) ∧
    (∀ prog name rest, argv = prog :: "follow".toList :: name :: rest →
      main argv input =
        { status := 0, err := [],
          consumed := min ((charsRead input).length + 1) input.length,
          final := loopFrom (some name) init input }) ∧
    (∀ prog, argv = [prog, "follow".toList] →
      main argv input = { status := 1, err := usage prog, consumed := 0, final := some init }) ∧
    (∀ prog arg rest, argv = prog :: arg :: rest → arg ≠ "follow".toList →
      main argv input = { status := 1, err := usage prog, consumed := 0, final := some init }) := by
  refine ⟨fun h => ?_, fun prog name rest h => ?_, fun prog h => ?_, fun prog arg rest h ha => ?_⟩
  · unfold main
    rw [if_neg (by omega)]
  · subst h
    unfold main
    simp
  · subst h
    unfold main
    simp
  · subst h
    unfold main
    rw [if_pos (show 2 ≤ (prog :: arg :: rest).length by simp),
      if_neg (show ¬ ((prog :: arg :: rest).getD 1 [] = "follow".toList) from ha)]
    rfl

/-- Witness of C11, amended: no argument, `follow a`, `follow` alone and the
argument `trace`. -/
theorem main_arguments_witness :
    (main ["canal".toList] "x();".toList =
      { status := 0, err := [], consumed := 4,
        final := some (scan none "x();".toList) }) ∧
    (main ["canal".toList, "follow".toList, "a".toList] "x();".toList =
      { status := 0, err := [], consumed := 4,
        final := some (scan (some "a".toList) "x();".toList) }) ∧
    (main ["canal".toList, "follow".toList] "x();".toList =
      { status := 1, err := usage "canal".toList, consumed := 0, final := some init }) ∧
    (main ["canal".toList, "trace".toList] "x();".toList =
      { status := 1, err := usage "canal".toList, consumed := 0, final := some init }) :=
  ⟨(main_arguments ["canal".toList] "x();".toList).1 (by decide),
    (main_arguments ["canal".toList, "follow".toList, "a".toList] "x();".toList).2.1
      "canal".toList "a".toList [] rfl,
    (main_arguments ["canal".toList, "follow".toList] "x();".toList).2.2.1 "canal".toList rfl,
    (main_arguments ["canal".toList, "trace".toList] "x();".toList).2.2.2
      "canal".toList "trace".toList [] rfl (by decide)⟩

/-- C12, the code at the failing input `do{`: the `{` cannot continue the
identifier `do`; after the step that consumes it the depth is still 0, while
finalizing and then applying the normal-state transition to `{` gives depth
1.  In the same way `/` after `do` leaves the scanner in the normal state,
not in the comment-start state. -/
theorem terminator_not_reprocessed :
    (scan none "do".toList).state = STATE_IDENTIFIER ∧
    continuesIdentifier '{' = false ∧
    (step none (scan none "do".toList) '{').depth = 0 ∧
    (transition none (finalize none (scan none "do".toList) '{') '{').depth = 1 ∧
    (step none (scan none "do".toList) '/').state = STATE_ANY ∧
    (transition none (finalize none (scan none "do".toList) '/') '/').state =
      STATE_COMMENT_BEGIN := by
  decide

/-- C13, the code at the failing input `foo2(`: the digit `2` does not
continue an identifier (a tab does), so `foo` is finalized at `2` and no call
site `foo2` is reported; the only line printed is the lookahead line for
`foo`.  In `foo`, tab, `(` the tab is part of the reported name. -/
theorem digit_ends_identifier :
    continuesIdentifier '2' = false ∧ continuesIdentifier '\t' = true ∧
    (scan none "foo2(".toList).out = [OutLine.func "foo".toList] ∧
    (scan none "foo\t(".toList).out = [OutLine.call 0 0 "foo\t".toList] := by
  decide

/-- C14, the code at the failing inputs `/***/` and `/* x **/`: the texts `*`
and ` x *` contain no `*/` and no newline, yet the scan ends inside the
comment (`STATE_COMMENT_END`), not in the normal state: a `*` read in
`STATE_COMMENT_END_FIN` goes back to `STATE_COMMENT_END`, so the `/` after
two stars does not close the comment. -/
theorem comment_star_run_not_closed :
    ¬ ['*', '/'] <:+: "*".toList ∧ ¬ ['*', '/'] <:+: " x *".toList ∧
    (scan none ('/' :: '*' :: "*".toList ++ ['*', '/'])).state = STATE_COMMENT_END ∧
    (scan none ('/' :: '*' :: " x *".toList ++ ['*', '/'])).state = STATE_COMMENT_END := by
  decide

/-- Counterexample to C15 as stated.  The body of the one byte 0xFF is an
item of the claim (a character other than the quote and backslash), yet the
loop ends at that byte, which compares equal to `EOF` in `char c`: the scan
of `"`, 0xFF, `"` stops inside the literal, in `STATE_DQUOTE_END`. -/
theorem literal_transparent_counterexample :
    literalBody '\"' [Char.ofNat 255] = true ∧
    loopFrom none init ('\"' :: [Char.ofNat 255] ++ ['\"']) = some (step none init '\"') ∧
    (step none init '\"').state = STATE_DQUOTE_END := by
  decide

/-- C15, amended: string and char literals are transparent and honour
one-character escapes.  For each quote character `q` (`'` or `"`) and every
body without the byte 0xFF that is a sequence of items without newlines, each
item one character other than `q` and backslash or a backslash followed by
one character: when the scan of `q` + body + `q`, from a state that is normal
with the escape flag clear, stays within the limits of the program, it reads
all of it and changes nothing but `last_state` and the column; so it ends in
the normal state with the escape flag clear, prints nothing and leaves the
depth and the symbol table as they were; and after no proper prefix of `q` +
body + `q` with more than one character is the scanner in the normal state. -/
theorem literal_transparent (follow : Option (List Char)) (s : State) (q : Char)
    (body : List Char) (hq : q = '\'' ∨ q = '\"') (hs : s.state = STATE_ANY)
    (he : s.escape = 0) (hb : literalBody q body = true)
    (hE : ∀ c ∈ body, readsEOF c = false)
    (hd : (loopFrom follow s (q :: body ++ [q])).isSome = true) :
    (∃ t, loopFrom follow s (q :: body ++ [q]) = some t ∧
      t = { s with last_state := quoteState q, col := s.col + (body.length + 2) } ∧
      t.state = STATE_ANY ∧ t.escape = 0 ∧ t.out = s.out ∧ t.depth = s.depth ∧
      t.identifiers = s.identifiers ∧ t.identifier_no = s.identifier_no) ∧
    ∀ p, p <+: q :: body ++ [q] → 1 < p.length → p ≠ q :: body ++ [q] →
      ∀ t, loopFrom follow s p = some t → t.state ≠ STATE_ANY := by
  have hqE : readsEOF q = false := by rcases hq with rfl | rfl <;> decide
  have hall : ∀ c ∈ q :: body ++ [q], readsEOF c = false := by
    intro c hc
    simp only [List.cons_append, List.mem_cons, List.mem_append, List.mem_singleton,
      List.not_mem_nil, or_false] at hc
    rcases hc with rfl | hc | rfl
    · exact hqE
    · exact hE c hc
    · exact hqE
  obtain ⟨h1, h2, h3, h4, h5, h6, h7, h8⟩ := scanFrom_literal follow s q body hq hs he hb
  refine ⟨⟨_, loopFrom_of_no_EOF follow _ s hall hd, h1, h2, h3, h4, h5, h6, h7⟩, ?_⟩
  intro p hp hlen hne t ht
  have hpE : ∀ c ∈ p, readsEOF c = false := fun c hc => hall c (hp.subset hc)
  rw [loopFrom_eq_some follow p s t ht, charsRead_of_no_EOF p hpE]
  exact h8 p hp hlen hne

/-- Witness of C15, amended: the string literal `"a\"b{"`, read at depth 0
after `x = `, is read to its end within the limits and leaves the scanner in
the normal state with only `last_state` and the column changed. -/
theorem literal_transparent_witness :
    (scan none "x = ".toList).state = STATE_ANY ∧ (scan none "x = ".toList).escape = 0 ∧
    literalBody '\"' "a\\\"b\x7b".toList = true ∧
    (∀ c ∈ "a\\\"b\x7b".toList, readsEOF c = false) ∧
    (loopFrom none (scan none "x = ".toList)
      ('\"' :: "a\\\"b\x7b".toList ++ ['\"'])).isSome = true ∧
    ∃ t, loopFrom none (scan none "x = ".toList) ('\"' :: "a\\\"b\x7b".toList ++ ['\"']) =
        some t ∧
      t = { scan none "x = ".toList with
            last_state := quoteState '\"',
            col := (scan none "x = ".toList).col + ("a\\\"b\x7b".toList.length + 2) } ∧
      t.state = STATE_ANY ∧ t.escape = 0 ∧ t.out = (scan none "x = ".toList).out ∧
      t.depth = (scan none "x = ".toList).depth ∧
      t.identifiers = (scan none "x = ".toList).identifiers ∧
      t.identifier_no = (scan none "x = ".toList).identifier_no :=
  ⟨by decide, by decide, by decide, by decide, by decide,
    (literal_transparent none (scan none "x = ".toList) '\"' "a\\\"b\x7b".toList
      (Or.inr rfl) (by decide) (by decide) (by decide) (by decide) (by decide)).1⟩

/-- Counterexample to C16 as stated.  Scanning `foo((` finalizes one
identifier and prints two lines, the report of `foo` and the lookahead line
for `foo`; scanning `foo (` prints one line, the lookahead line, not none. -/
theorem report_once_counterexample :
    finalizedCount none init "foo((".toList = 1 ∧
    (scan none "foo((".toList).out =
      [OutLine.call 0 0 "foo".toList, OutLine.func "foo".toList] ∧
    (scan none "foo (".toList).out = [OutLine.func "foo".toList] := by
  decide

/-- C16, amended: the report decision fires at most once per completed
identifier.  For every input and in both modes, the number of call-site
reports in the output is at most the number of identifiers finalized during
the scan, and so is the number of lookahead lines, which are printed in
addition; so the output has at most twice as many lines as identifiers were
finalized.  Every step prints at most one report, and only when it finalizes
an identifier on `(`.  Scanning `foo((` prints one report and one lookahead
line; scanning `foo (` prints no report and one lookahead line. -/
theorem report_once_per_identifier (follow : Option (List Char)) (input : List Char) :
    (scan follow input).out.countP OutLine.isCall ≤ finalizedCount follow init input ∧
    (scan follow input).out.countP (fun o => !o.isCall) ≤ finalizedCount follow init input ∧
    (scan follow input).out.length ≤ 2 * finalizedCount follow init input ∧
    (∀ pre c, ∃ new, (scan follow (pre ++ [c])).out = (scan follow pre).out ++ new ∧
      new.countP OutLine.isCall ≤ 1 ∧
      (new.countP OutLine.isCall = 1 → finalizes (scan follow pre) c = true ∧ c = '(')) ∧
    (scan none "foo((".toList).out =
      [OutLine.call 0 0 "foo".toList, OutLine.func "foo".toList] ∧
    (scan none "foo (".toList).out = [OutLine.func "foo".toList] := by
  have h1 : (scan follow input).out.countP OutLine.isCall ≤ finalizedCount follow init input := by
    have := scanFrom_calls follow init input
    simpa [init] using this
  have h2 : (scan follow input).out.countP (fun o => !o.isCall) ≤
      finalizedCount follow init input := by
    have := scanFrom_funcs follow init input
    have e1 : init.out.countP (fun o => !o.isCall) = 0 := rfl
    have e2 : pendingLookahead init = 0 := rfl
    rw [e1, e2] at this
    exact Nat.le_trans (Nat.le_add_right _ _) (by simpa using this)
  refine ⟨h1, h2, ?_, ?_, by decide, by decide⟩
  · have hl := List.length_eq_countP_add_countP OutLine.isCall (scan follow input).out
    have e : List.countP (fun a => decide ¬OutLine.isCall a = true) (scan follow input).out =
        List.countP (fun o => !o.isCall) (scan follow input).out := by
      congr 1
      funext a
      cases a <;> rfl
    rw [e] at hl
    omega
  · intro pre c
    obtain ⟨new, e, hle, hp⟩ := step_calls follow (scan follow pre) c
    refine ⟨new, by rw [scan_snoc, e], ?_, fun h => ?_⟩
    · exact Nat.le_trans hle (by split <;> omega)
    · refine ⟨?_, hp h⟩
      rw [h] at hle
      by_contra hf
      rw [if_neg hf] at hle
      omega

/-- Witness of C16, amended: in `foo(`, the step on `(` prints one report
and finalizes the identifier `foo`. -/
theorem report_once_per_identifier_witness :
    ∃ new, (scan none ("foo".toList ++ ['('])).out = (scan none "foo".toList).out ++ new ∧
      new.countP OutLine.isCall ≤ 1 ∧
      (new.countP OutLine.isCall = 1 →
        finalizes (scan none "foo".toList) '(' = true ∧ '(' = '(') :=
  (report_once_per_identifier none "foo(".toList).2.2.2.1 "foo".toList '('

/-- C17: arming and disarming of the follow filter, `check_follow` with a
target.  The filter goes from inactive (-1) to armed only when the
identifier is the target and the depth is 0, and is then armed at that depth;
it goes from armed to inactive only when the identifier differs from the
target and the depth is the armed depth; both changes do happen under these
conditions, and in every other case `follow_on` is unchanged.  Nothing but
`follow_on` is changed: not the depth, not the symbol table. -/
theorem check_follow_arming (target w : List Char) (s : State) :
    (s.follow_on = -1 → (check_follow (some target) s w).follow_on ≠ -1 →
      w = target ∧ s.depth = 0 ∧ (check_follow (some target) s w).follow_on = s.depth) ∧
    (s.follow_on = -1 → w = target → s.depth = 0 →
      (check_follow (some target) s w).follow_on = s.depth) ∧
    (s.follow_on ≠ -1 → (check_follow (some target) s w).follow_on = -1 →
      w ≠ target ∧ s.depth = s.follow_on) ∧
    (s.follow_on ≠ -1 → w ≠ target → s.depth = s.follow_on →
      (check_follow (some target) s w).follow_on = -1) ∧
    (¬ (s.follow_on = -1 ∧ w = target ∧ s.depth = 0) →
      ¬ (s.follow_on ≠ -1 ∧ w ≠ target ∧ s.depth = s.follow_on) →
      (check_follow (some target) s w).follow_on = s.follow_on) ∧
    check_follow (some target) s w =
      { s with follow_on := (check_follow (some target) s w).follow_on } := by
  have key : (check_follow (some target) s w).follow_on =
      if s.follow_on = -1 ∧ s.depth = 0 ∧ w = target then s.depth
      else if s.follow_on = s.depth ∧ w ≠ target then -1 else s.follow_on := by
    unfold check_follow
    simp only []
    split
    · rfl
    · split <;> rfl
  refine ⟨?_, ?_, ?_, ?_, ?_, check_follow_eq (some target) s w⟩
  · intro h0 h1
    rw [key] at h1 ⊢
    by_cases hc : s.follow_on = -1 ∧ s.depth = 0 ∧ w = target
    · rw [if_pos hc]; exact ⟨hc.2.2, hc.2.1, rfl⟩
    · rw [if_neg hc] at h1
      split at h1
      · exact absurd rfl h1
      · exact absurd h0 h1
  · intro h0 hw hd
    rw [key, if_pos ⟨h0, hd, hw⟩]
  · intro h0 h1
    rw [key, if_neg (fun h => h0 h.1)] at h1
    split at h1
    · rename_i hc; exact ⟨hc.2, hc.1.symm⟩
    · exact absurd h1 h0
  · intro h0 hw hd
    rw [key, if_neg (fun h => h0 h.1), if_pos ⟨hd.symm, hw⟩]
  · intro n1 n2
    rw [key, if_neg (fun h => n1 ⟨h.1, h.2.2, h.2.1⟩)]
    split
    · rename_i hc
      by_cases h0 : s.follow_on = -1
      · exact h0.symm
      · exact absurd ⟨h0, hc.2, hc.1.symm⟩ n2
    · rfl

/-- Witness of C17: with target `a`, the call `a(` at depth 0 arms the
inactive filter at depth 0, and the later call `b(` at depth 0 disarms it. -/
theorem check_follow_arming_witness :
    (scan (some "a".toList) "a".toList).follow_on = -1 ∧
    (check_follow (some "a".toList) (scan (some "a".toList) "a".toList) "a".toList).follow_on =
      (scan (some "a".toList) "a".toList).depth ∧
    (scan (some "a".toList) "a() \x7b \x7d b".toList).follow_on ≠ -1 ∧
    (check_follow (some "a".toList) (scan (some "a".toList) "a() \x7b \x7d b".toList)
      "b".toList).follow_on = -1 :=
  ⟨by decide,
    (check_follow_arming "a".toList "a".toList (scan (some "a".toList) "a".toList)).2.1
      (by decide) rfl (by decide),
    by decide,
    (check_follow_arming "a".toList "b".toList
      (scan (some "a".toList) "a() \x7b \x7d b".toList)).2.2.2.1
      (by decide) (by decide) (by decide)⟩

/-- Counterexample to C18 as stated.  The text `L` of the one byte 0xFF has
no newline, yet the scan of `#`, 0xFF, newline from the initial state (column
0) ends at that byte, which compares equal to `EOF` in `char c`: it stops in
`STATE_SKIP_EOL` with the line counter still 0. -/
theorem hash_line_skipped_counterexample :
    init.col = 0 ∧ '\n' ∉ [Char.ofNat 255] ∧
    loopFrom none init ('#' :: [Char.ofNat 255] ++ ['\n']) = some (step none init '#') ∧
    (step none init '#').state = STATE_SKIP_EOL ∧ (step none init '#').line = 0 := by
  decide

/-- C18, amended: a `#` in column 0 skips the whole line, whatever the lexical
state.  For every state with column 0 (normal, inside a comment, inside a
literal, or any other) and every text `L` without a newline and without the
byte 0xFF: when the scan of `#` + `L` + newline stays within the limits of the
program, it reads all of it and changes nothing but this: the state is
normal, the line counter is one more, the column is 0 (and `last_state` is
`STATE_SKIP_EOL`); so nothing is printed and the depth, the follow state and
the symbol table are as before.  A `#` at a column other than 0, outside a
directive line, does not enter `STATE_SKIP_EOL`. -/
theorem hash_line_skipped (follow : Option (List Char)) (s : State) (L : List Char)
    (hc : s.col = 0) (hL : '\n' ∉ L) (hE : ∀ c ∈ L, readsEOF c = false)
    (hd : (loopFrom follow s ('#' :: L ++ ['\n'])).isSome = true) :
    loopFrom follow s ('#' :: L ++ ['\n']) =
      some { s with state := STATE_ANY, last_state := STATE_SKIP_EOL,
                    line := s.line + 1, col := 0 } ∧
    ∀ t t' : State, t.col ≠ 0 → t.state ≠ STATE_SKIP_EOL →
      stepChecked follow t '#' = some t' → t'.state ≠ STATE_SKIP_EOL := by
  have hall : ∀ c ∈ '#' :: L ++ ['\n'], readsEOF c = false := by
    intro c hc
    simp only [List.cons_append, List.mem_cons, List.mem_append, List.mem_singleton,
      List.not_mem_nil, or_false] at hc
    rcases hc with rfl | hc | rfl
    · decide
    · exact hE c hc
    · decide
  obtain ⟨h1, h2⟩ := scanFrom_hash_line follow s L hc hL
  refine ⟨?_, fun t t' ht1 ht2 hst => ?_⟩
  · rw [loopFrom_of_no_EOF follow _ s hall hd, h1]
  · unfold stepChecked at hst
    split at hst
    · rw [← Option.some.inj hst]
      exact h2 t ht1 ht2
    · cases hst

/-- Witness of C18, amended: inside the comment opened by `/* x` and a
newline, the line `#define A f(` is read to its end within the limits and
changes only the line counter and the state, which is normal afterwards; and
the `#` of `a #` does not start a directive line. -/
theorem hash_line_skipped_witness :
    (scan none "/* x\n".toList).col = 0 ∧ '\n' ∉ "define A f(".toList ∧
    (∀ c ∈ "define A f(".toList, readsEOF c = false) ∧
    (loopFrom none (scan none "/* x\n".toList)
      ('#' :: "define A f(".toList ++ ['\n'])).isSome = true ∧
    loopFrom none (scan none "/* x\n".toList) ('#' :: "define A f(".toList ++ ['\n']) =
      some { scan none "/* x\n".toList with
        state := STATE_ANY, last_state := STATE_SKIP_EOL,
        line := (scan none "/* x\n".toList).line + 1, col := 0 } ∧
    stepChecked none (scan none "a ".toList) '#' = some (step none (scan none "a ".toList) '#') ∧
    (step none (scan none "a ".toList) '#').state ≠ STATE_SKIP_EOL :=
  ⟨by decide, by decide, by decide, by decide,
    (hash_line_skipped none (scan none "/* x\n".toList) "define A f(".toList
      (by decide) (by decide) (by decide) (by decide)).1,
    by decide,
    (hash_line_skipped none (scan none "/* x\n".toList) "define A f(".toList
      (by decide) (by decide) (by decide) (by decide)).2 (scan none "a ".toList)
      (step none (scan none "a ".toList) '#') (by decide) (by decide) (by decide)⟩

/-- C19: in follow mode `follow_on` is -1 or 0 at every reachable state (the
filter is only ever armed at depth 0).  Hence every report that a step prints
in follow mode (the character `c` after the prefix `pre`) is for a call site
at the current depth, which is not 0, and is printed only after the target
has occurred as a call target at depth 0 in `pre`. -/
theorem follow_on_values (target : List Char) (pre : List Char) (c : Char) :
    ((scan (some target) pre).follow_on = -1 ∨ (scan (some target) pre).follow_on = 0) ∧
    ∃ new, (scan (some target) (pre ++ [c])).out = (scan (some target) pre).out ++ new ∧
      ∀ l d n, OutLine.call l d n ∈ new →
        d = (scan (some target) pre).depth ∧ d ≠ 0 ∧ calledAtTop target init pre = true := by
  have hr := scanFrom_follow_range target init pre (Or.inl rfl)
  refine ⟨hr, ?_⟩
  rw [scan_snoc, (step_out_follow (some target) (scan (some target) pre) c).1,
    List.append_assoc]
  refine ⟨_, rfl, ?_⟩
  intro l d n hmem
  rcases List.mem_append.1 hmem with hm | hm
  · split at hm
    · rw [List.mem_singleton] at hm; cases hm
    · cases hm
  · split at hm
    · rename_i hc
      rw [List.mem_singleton] at hm
      injection hm with h1 h2 h3
      obtain ⟨_, _, _, hf⟩ := hc
      rcases hf with hf | ⟨hf1, hf2⟩
      · cases hf
      · have hrange := check_follow_range target
          (cstr (scan (some target) pre).identifier) _ hr
        have h0 : (check_follow (some target) (scan (some target) pre)
            (cstr (scan (some target) pre).identifier)).follow_on = 0 :=
          hrange.resolve_left hf1
        refine ⟨h2, ?_, ?_⟩
        · rw [h2]
          intro hd
          exact hf2 (h0.trans hd.symm)
        · cases hcall : calledAtTop target init pre with
          | true => rfl
          | false =>
            exfalso
            have hfo := (scanFrom_unarmed target init pre rfl hcall).1
            have hfo' : (scan (some target) pre).follow_on = -1 := hfo
            rw [check_follow_target, hfo'] at h0 hf2
            split at h0
            · rename_i hc2
              rw [if_pos hc2] at hf2
              exact hf2 rfl
            · split at h0
              · cases h0
              · cases h0
    · cases hm

/-- Witness of C19: with target `a`, after `a() { x` the report of `x` is
printed at depth 1, after the call of `a` at depth 0. -/
theorem follow_on_values_witness :
    ∃ new, (scan (some "a".toList) ("a() \x7b x".toList ++ ['('])).out =
        (scan (some "a".toList) "a() \x7b x".toList).out ++ new ∧
      ∀ l d n, OutLine.call l d n ∈ new →
        d = (scan (some "a".toList) "a() \x7b x".toList).depth ∧ d ≠ 0 ∧
          calledAtTop "a".toList init "a() \x7b x".toList = true :=
  (follow_on_values "a".toList "a() \x7b x".toList '(').2

/-- C20: `id_as_str` is never asked for an ID out of range.  At every
reachable state, in both modes, `identifier_no` is below 35 plus the number
of stored identifiers and has a text; this is the ID that the lookahead
check prints, and the ID and table of the report are those of the state
after its step.  The ID that `find_id` returns at the end of an identifier
has the text of the identifier in the table after the call.  The stored list
never holds a keyword, nor a text twice. -/
theorem id_always_in_range (follow : Option (List Char)) (input : List Char) :
    (scan follow input).identifier_no < 35 + (scan follow input).identifiers.length ∧
    (id_as_str (scan follow input) (scan follow input).identifier_no).isSome = true ∧
    id_as_str (find_id (scan follow input) (cstr (scan follow input).identifier)).2
        (find_id (scan follow input) (cstr (scan follow input).identifier)).1 =
      some (cstr (scan follow input).identifier) ∧
    (∀ x ∈ (scan follow input).identifiers, x ∉ keyword) ∧
    (scan follow input).identifiers.Nodup := by
  obtain ⟨h1, h2, h3⟩ := (scanFrom_ok follow init input init_ok.1 init_ok.2).1
  exact ⟨by rw [← kw_arr_len_eq]; exact h3, id_as_str_isSome _ _ h3,
    id_as_str_find_id _ _, h1, h2⟩

/-- Witness of C20: after `if (x) foo(); bar(); foo` the table holds `x`,
`foo` and `bar`, none of them a keyword. -/
theorem id_always_in_range_witness :
    "foo".toList ∈ (scan none "if (x) foo(); bar(); foo".toList).identifiers ∧
    "foo".toList ∉ keyword :=
  ⟨by decide,
    (id_always_in_range none "if (x) foo(); bar(); foo".toList).2.2.2.1 "foo".toList
      (by decide)⟩

end Canal
